import Mathlib

/-!
Key codec of `bitrainforest/datastore` (`types.go`)

A shallow embedding of the height-indexed key codec: the `Key` value, the
encoder `KeyBuilder` (with `Key.Value` and `Key.Default`) and the validating
parser `ParseKey`, together with the pieces of the Go standard library they
call (`strings.Split`, `strconv.ParseInt`, `strconv.FormatInt`, the `%d` and
`%s` verbs of `fmt.Sprintf`).

Conventions of the embedding:

* a Go `string` is a finite sequence of bytes, `GoString = List UInt8`;
* an `int64` is an `Int` in the range `[minInt64, maxInt64]`; where the Go
  code does arithmetic on it the result is wrapped with `wrapInt64`;
* a `uint64` is a `Nat` below `2 ^ 64`, wrapped with `% 2 ^ 64`;
* a Go function returning `(value, error)` is a pair whose second component
  is an `Option`, or an `Except` when the value is `nil` on failure.
-/

namespace Datastore

/-! ## Go strings and machine integers -/

/-- Go `string`: an immutable sequence of bytes. -/
abbrev GoString := List UInt8

/-- Go string literal: the UTF-8 bytes of the text. -/
def str (s : String) : GoString := s.toUTF8.data.toList

/-- Byte of the character `/`, the separator of path segments. -/
abbrev slash : UInt8 := 47

/-- Byte of the character `.`, the separator of stem and suffix. -/
abbrev dot : UInt8 := 46

/-- Byte of the character `+`. -/
abbrev plus : UInt8 := 43

/-- Byte of the character `-`. -/
abbrev minus : UInt8 := 45

/-- Smallest `int64`, `math.MinInt64`. -/
def minInt64 : Int := -9223372036854775808

/-- Largest `int64`, `math.MaxInt64`. -/
def maxInt64 : Int := 9223372036854775807

/-- Largest `uint64`, `1<<64 - 1`. -/
def maxUint64 : Nat := 18446744073709551615

/-- Range predicate: the integer is a value of Go type `int64`. -/
def isInt64 (x : Int) : Prop := minInt64 ≤ x ∧ x ≤ maxInt64

instance (x : Int) : Decidable (isInt64 x) := by
  unfold isInt64; exact inferInstance

/-- Wrap-around of an integer result into the range of `int64`. -/
def wrapInt64 (x : Int) : Int := (x + 2 ^ 63) % 2 ^ 64 - 2 ^ 63

/-- Conversion `uint64(i)` of an `int64`. -/
def toUint64 (i : Int) : Nat := (i % 2 ^ 64).toNat

/-! ## `strings.Split` with a one-byte separator -/

/-- Go `strings.Split(s, sep)` for a separator of one byte: the pieces of `s`
between consecutive occurrences of `sep`, in order. The result always has
`Count(s, sep) + 1` elements; in particular `Split("", sep)` is `[""]`. -/
def Split : GoString → UInt8 → List GoString
  | [], _ => [[]]
  | c :: cs, sep =>
    if c = sep then [] :: Split cs sep
    else
      match Split cs sep with
      | [] => [[c]]
      | seg :: segs => (c :: seg) :: segs

/-! ## `strconv.ParseInt(s, 10, 64)` -/

/-- The two sentinel errors of `strconv`: `ErrSyntax` and `ErrRange`. -/
inductive NumErrKind
  | ErrSyntax
  | ErrRange
  deriving DecidableEq, Repr

/-- Go `*strconv.NumError` as produced by `ParseInt`: the input that failed
and the reason. -/
structure NumError where
  Num : GoString
  Err : NumErrKind
  deriving DecidableEq, Repr

/-- Helper `lower(c)` of `strconv`: the byte `c` with bit `0x20` set, which
turns an ASCII capital letter into the small one. -/
def lower (c : UInt8) : Nat := c.toNat ||| 32

/-- Digit value of one byte in `ParseUint`: the `switch` over `c` for a
base other than 0. `none` is the `default` branch (syntax error). -/
def digitVal (c : UInt8) : Option Nat :=
  if 48 ≤ c.toNat ∧ c.toNat ≤ 57 then some (c.toNat - 48)
  else if 97 ≤ lower c ∧ lower c ≤ 122 then some (lower c - 97 + 10)
  else none

/-- Cutoff of `ParseUint` in base 10: `maxUint64/10 + 1`, the smallest number
whose tenfold exceeds `maxUint64`. -/
def cutoff10 : Nat := maxUint64 / 10 + 1

/-- The loop `for _, c := range []byte(s)` of `strconv.ParseUint(s, 10, 64)`
started with accumulator `n`. The result is the pair `(value, err)`. -/
def parseUintLoop : GoString → Nat → Nat × Option NumErrKind
  | [], n => (n, none)
  | c :: cs, n =>
    match digitVal c with
    | none => (0, some .ErrSyntax)
    | some d =>
      if 10 ≤ d then (0, some .ErrSyntax)
      else if cutoff10 ≤ n then (maxUint64, some .ErrRange)
      else
        let n10 := n * 10 % 2 ^ 64
        let n1 := (n10 + d) % 2 ^ 64
        if n1 < n10 ∨ maxUint64 < n1 then (maxUint64, some .ErrRange)
        else parseUintLoop cs n1

/-- Go `strconv.ParseUint(s, 10, 64)`. -/
def ParseUint (s : GoString) : Nat × Option NumErrKind :=
  if s = [] then (0, some .ErrSyntax) else parseUintLoop s 0

/-- Go `strconv.ParseInt(s, 10, 64)`: an optional sign, then `ParseUint`, then
the range check against `1 << 63`. The result is the pair `(i, err)`. -/
def ParseInt (s : GoString) : Int × Option NumError :=
  match s with
  | [] => (0, some ⟨s, .ErrSyntax⟩)
  | c :: cs =>
    let neg : Bool := c = minus
    let body : GoString := if c = plus ∨ c = minus then cs else s
    match ParseUint body with
    | (_, some .ErrSyntax) => (0, some ⟨s, .ErrSyntax⟩)
    | (un, _) =>
      let cutoff : Nat := 2 ^ 63
      if neg = false ∧ cutoff ≤ un then ((cutoff : Int) - 1, some ⟨s, .ErrRange⟩)
      else if neg = true ∧ cutoff < un then (-(cutoff : Int), some ⟨s, .ErrRange⟩)
      else
        let n := wrapInt64 un
        (if neg then wrapInt64 (-n) else n, none)

/-! ## `strconv.FormatInt(i, 10)` and the `%d` verb -/

/-- ASCII digit for a value below ten. -/
def digitByte (d : Nat) : UInt8 := UInt8.ofNat (48 + d)

/-- Digit loop of `strconv.formatBits` in base 10: writes the decimal digits
of `u` in front of `acc`, least significant first, stopping at the leading
digit. `fuel` bounds the number of digits written. -/
def formatDigits : Nat → Nat → GoString → GoString
  | 0, _, acc => acc
  | fuel + 1, u, acc =>
    if u < 10 then digitByte u :: acc
    else formatDigits fuel (u / 10) (digitByte (u % 10) :: acc)

/-- Go `strconv.formatBits(nil, u, 10, neg, false)`: negates `u` as a `uint64`
when `neg`, writes its digits into a buffer of `64 + 1` bytes and puts the
sign in front. -/
def formatBits (u : Nat) (neg : Bool) : GoString :=
  let u := if neg then (2 ^ 64 - u) % 2 ^ 64 else u
  let ds := formatDigits 65 u []
  if neg then minus :: ds else ds

/-- Go `strconv.FormatInt(i, 10)`, which is also what the verb `%d` of
`fmt.Sprintf` prints for an `int64`. -/
def FormatInt (i : Int) : GoString := formatBits (toUint64 i) (decide (i < 0))

/-! ## `types.go` -/

/-- Source constant `splitWidth`. -/
def splitWidth : Int := 10000

/-- Source type `KeyType`, a named `string` type. -/
abbrev KeyType := GoString

/-- Source constant `Snapshot`. -/
def Snapshot : KeyType := str "snapshot"

/-- Source constant `Compacted`. -/
def Compacted : KeyType := str "compacted"

/-- Source constant `Implicit`. -/
def Implicit : KeyType := str "implicit"

/-- Source constant `Messages`. -/
def Messages : KeyType := str "messages"

/-- Key set of the source map `KeyTypeMap` after `init()` has run. -/
def KeyTypeMap : List KeyType := [Snapshot, Compacted, Implicit, Messages]

/-- Source struct `Key`. -/
structure Key where
  height : Int
  ft : KeyType
  deriving DecidableEq, Repr

/-- Source function `NewKey`. -/
def NewKey (height : Int) (ft : KeyType) : Key := { height := height, ft := ft }

/-- Source method `Key.Type`. -/
def Key.Type (k : Key) : KeyType := k.ft

/-- Source method `Key.Height`. -/
def Key.Height (k : Key) : Int := k.height

/-- Quotient `h / splitWidth` on `int64`: Go division truncates toward zero. -/
def shardOf (h : Int) : Int := wrapInt64 (Int.tdiv h splitWidth)

/-- Source function `KeyBuilder`. -/
def KeyBuilder (kt : KeyType) (height : Int) (splitPrefix : Bool) : GoString :=
  let suffix : GoString :=
    if kt = Snapshot ∨ kt = Compacted then str ".car"
    else if kt = Implicit ∨ kt = Messages then str ".json"
    else []
  if splitPrefix = false then
    kt ++ str "/" ++ FormatInt height ++ suffix
  else
    kt ++ str "/" ++ FormatInt (shardOf height) ++ str "/" ++ FormatInt height ++ suffix

/-- Source method `Key.Value`. -/
def Key.Value (k : Key) (splitPrefix : Bool) : GoString :=
  KeyBuilder k.ft k.height splitPrefix

/-- Source method `Key.Default`. -/
def Key.Default (k : Key) : GoString :=
  if k.ft = Snapshot then KeyBuilder k.ft k.height false
  else KeyBuilder k.ft k.height true

/-- Errors returned by `ParseKey`, one constructor for each `return nil, ...`
of the source, in source order. -/
inductive KeyError
  /-- Message `"invalid key"`: the path has neither 2 nor 3 segments. -/
  | invalidKey
  /-- Message `"invalid key type"`: the first segment is not in `KeyTypeMap`. -/
  | invalidKeyType
  /-- Message `"invalid key suffix"`: the name is not of the shape `stem.suffix`. -/
  | invalidKeyName
  /-- The error of `strconv.ParseInt`, returned as it is. -/
  | invalidHeight (err : NumError)
  /-- Message `"invalid key suffix: %s, expect: %s"`. -/
  | invalidKeySuffix (given expect : GoString)
  /-- Message `"invalid key prefix: %s, expect: %s"`. -/
  | invalidKeyPrefix (given expect : GoString)
  deriving DecidableEq, Repr

/-- The first `switch` of `ParseKey`: type, prefix and name of a path split
on `/`, when it has 2 or 3 segments (`prefix` keeps its zero value `""` in the
2-segment form). -/
def keySegments : List GoString → Option (KeyType × GoString × GoString)
  | [kt, name] => some (kt, [], name)
  | [kt, pre, name] => some (kt, pre, name)
  | _ => none

/-- Source function `ParseKey`. -/
def ParseKey (key : GoString) : Except KeyError Key :=
  match keySegments (Split key slash) with
  | none => .error .invalidKey
  | some (kt, pre, name) =>
    if kt ∉ KeyTypeMap then .error .invalidKeyType
    else
      match Split name dot with
      | [stem, ext] =>
        let parsed : Int × Option NumError :=
          if stem = str "latest" then (-1, none) else ParseInt stem
        match parsed with
        | (_, some err) => .error (.invalidHeight err)
        | (h, none) =>
          if (kt = Messages ∨ kt = Implicit) ∧ ext ≠ str "json" then
            .error (.invalidKeySuffix ext (str "json"))
          else if (kt = Snapshot ∨ kt = Compacted) ∧ ext ≠ str "car" then
            .error (.invalidKeySuffix ext (str "car"))
          else if kt = Snapshot then
            if pre ≠ [] then .error (.invalidKeyPrefix pre [])
            else .ok (NewKey h kt)
          else
            let p := FormatInt (shardOf h)
            if pre ≠ p then .error (.invalidKeyPrefix pre p)
            else .ok (NewKey h kt)
      | _ => .error .invalidKeyName

deriving instance DecidableEq for Except

/-! ## Auxiliary notions used in the statements -/

/-- Decimal digit bytes, ASCII codes 48 to 57. -/
def isDigitByte (c : UInt8) : Prop := 48 ≤ c.toNat ∧ c.toNat ≤ 57

/-- The part of the input that `ParseInt` hands to `ParseUint`. -/
def unsignedPart : GoString → GoString
  | [] => []
  | c :: cs => if c = plus ∨ c = minus then cs else c :: cs

/-- Decimal digits of a natural number, as `formatBits` writes them. -/
def decimal (u : Nat) : GoString := formatDigits 65 u []

/-- The suffix `ParseKey` expects after the dot for a recognized type:
`json` for `Messages` and `Implicit`, `car` for `Snapshot` and `Compacted`. -/
def expectedSuffix (kt : KeyType) : GoString :=
  if kt = Messages ∨ kt = Implicit then str "json" else str "car"

/-- The types that carry a shard segment. -/
def isSharded (kt : KeyType) : Prop := kt = Compacted ∨ kt = Implicit ∨ kt = Messages

instance (kt : KeyType) : Decidable (isSharded kt) := by
  unfold isSharded; exact inferInstance

instance (c : UInt8) : Decidable (isDigitByte c) := by
  unfold isDigitByte; exact inferInstance

/-- Number denoted by a string of decimal digits read from the left, starting
from the value `n` of the digits already read. -/
def digitsValueFrom (n : Nat) (ds : GoString) : Nat :=
  ds.foldl (fun a c => a * 10 + (c.toNat - 48)) n

/-- Number denoted by a string of decimal digits. -/
def digitsValue (ds : GoString) : Nat := digitsValueFrom 0 ds

/-- Strings that are base-10 signed integers in `int64` range, stated without
reference to `ParseInt`: an optional sign `+` or `-`, then one or more decimal
digits, the signed value lying between `minInt64` and `maxInt64`. -/
def isDecimalInt64 (s : GoString) : Prop :=
  unsignedPart s ≠ [] ∧ (∀ c ∈ unsignedPart s, isDigitByte c) ∧
    isInt64 (if s.head? = some minus then -(digitsValue (unsignedPart s) : Int)
      else (digitsValue (unsignedPart s) : Int))

instance (s : GoString) : Decidable (isDecimalInt64 s) := by
  unfold isDecimalInt64; exact inferInstance

/-- Canonical decimal rendering of an integer, stated by its properties and
without reference to `FormatInt`: the string `d` renders `h` when it starts
with the sign `-` exactly if `h` is negative, and the rest is one or more
decimal digits that denote the absolute value of `h` and have no leading zero
(the single digit `0` apart). -/
def isDecimalOf (h : Int) (d : GoString) : Prop :=
  (h < 0 → d.head? = some minus) ∧
    (if h < 0 then d.tail else d) ≠ [] ∧
    (∀ c ∈ (if h < 0 then d.tail else d), isDigitByte c) ∧
    ((if h < 0 then d.tail else d).head? = some 48 → (if h < 0 then d.tail else d) = [48]) ∧
    digitsValue (if h < 0 then d.tail else d) = h.natAbs

instance (h : Int) (d : GoString) : Decidable (isDecimalOf h d) := by
  unfold isDecimalOf; exact inferInstance

/-! ## Facts about `Split` -/

theorem split_ne_nil (s : GoString) (sep : UInt8) : Split s sep ≠ [] := by
  cases s with
  | nil => simp [Split]
  | cons c cs =>
    simp only [Split]
    split
    · simp
    · split <;> simp

theorem split_of_not_mem {s : GoString} {sep : UInt8} (h : sep ∉ s) :
    Split s sep = [s] := by
  induction s with
  | nil => rfl
  | cons c cs ih =>
    have hc : c ≠ sep := fun e => h (by simp [e])
    have hcs : sep ∉ cs := fun e => h (by simp [e])
    simp [Split, hc, ih hcs]

theorem split_append_sep {a : GoString} (b : GoString) {sep : UInt8} (h : sep ∉ a) :
    Split (a ++ sep :: b) sep = a :: Split b sep := by
  induction a with
  | nil => simp [Split]
  | cons c cs ih =>
    have hc : c ≠ sep := fun e => h (by simp [e])
    have hcs : sep ∉ cs := fun e => h (by simp [e])
    simp [Split, hc, ih hcs]

theorem split_length (s : GoString) (sep : UInt8) :
    (Split s sep).length = s.count sep + 1 := by
  induction s with
  | nil => rfl
  | cons c cs ih =>
    simp only [Split]
    by_cases hc : c = sep
    · subst hc; simp [ih]
    · have hne : (c == sep) = false := by simpa using hc
      rw [if_neg hc, List.count_cons, hne]
      cases hs : Split cs sep with
      | nil => exact absurd hs (split_ne_nil cs sep)
      | cons seg segs => rw [hs] at ih; simpa using ih

/-! ## Facts about `ParseInt` and `FormatInt` -/

theorem digitVal_lt_ten {c : UInt8} {d : Nat} (h : digitVal c = some d) (hd : d < 10) :
    isDigitByte c := by
  unfold digitVal at h
  unfold isDigitByte
  split at h
  · assumption
  · split at h
    · simp at h; omega
    · simp at h

theorem parseUintLoop_digits {s : GoString} {n m : Nat}
    (h : parseUintLoop s n = (m, none)) : ∀ c ∈ s, isDigitByte c := by
  induction s generalizing n with
  | nil => simp
  | cons c cs ih =>
    unfold parseUintLoop at h
    split at h
    · simp at h
    · rename_i d hd
      split at h
      · simp at h
      · split at h
        · simp at h
        · simp only at h
          split at h
          · simp at h
          · intro x hx
            rcases List.mem_cons.1 hx with rfl | hx
            · exact digitVal_lt_ten hd (by omega)
            · exact ih h x hx

theorem parseUintLoop_range {s : GoString} {n m : Nat}
    (h : parseUintLoop s n = (m, some .ErrRange)) : m = maxUint64 := by
  induction s generalizing n with
  | nil => simp [parseUintLoop] at h
  | cons c cs ih =>
    unfold parseUintLoop at h
    split at h
    · simp at h
    · split at h
      · simp at h
      · split at h
        · simp at h; exact h.symm
        · simp only at h
          split at h
          · simp at h; exact h.symm
          · exact ih h

theorem parseUint_range {s : GoString} {m : Nat}
    (h : ParseUint s = (m, some .ErrRange)) : m = maxUint64 := by
  unfold ParseUint at h
  split at h
  · simp at h
  · exact parseUintLoop_range h

theorem parseInt_ok_parseUint {s : GoString} (h : (ParseInt s).2 = none) :
    ∃ un, ParseUint (unsignedPart s) = (un, none) := by
  cases s with
  | nil => simp [ParseInt] at h
  | cons c cs =>
    simp only [ParseInt] at h
    simp only [unsignedPart]
    generalize hb : (if c = plus ∨ c = minus then cs else c :: cs) = body at h
    rcases hp : ParseUint body with ⟨un, e⟩
    rw [hp] at h
    cases e with
    | none => exact ⟨un, rfl⟩
    | some k =>
      cases k with
      | ErrSyntax => simp at h
      | ErrRange =>
        have hm := parseUint_range hp
        subst hm
        simp only at h
        by_cases hneg : c = minus <;> simp [hneg, maxUint64] at h

theorem parseUint_digits {s : GoString} {m : Nat}
    (h : ParseUint s = (m, none)) : ∀ c ∈ s, isDigitByte c := by
  unfold ParseUint at h
  by_cases hs : s = []
  · simp [hs] at h
  · rw [if_neg hs] at h
    exact parseUintLoop_digits h

theorem parseInt_bytes {s : GoString} (h : (ParseInt s).2 = none) :
    ∀ c ∈ s, c = plus ∨ c = minus ∨ isDigitByte c := by
  obtain ⟨un, hu⟩ := parseInt_ok_parseUint h
  cases s with
  | nil => simp
  | cons c cs =>
    simp only [unsignedPart] at hu
    intro x hx
    by_cases hc : c = plus ∨ c = minus
    · rw [if_pos hc] at hu
      rcases List.mem_cons.1 hx with rfl | hx
      · rcases hc with hc | hc
        · exact Or.inl hc
        · exact Or.inr (Or.inl hc)
      · exact Or.inr (Or.inr (parseUint_digits hu x hx))
    · rw [if_neg hc] at hu
      exact Or.inr (Or.inr (parseUint_digits hu x hx))

theorem parseInt_no_slash {s : GoString} (h : (ParseInt s).2 = none) : slash ∉ s := by
  intro hm
  rcases parseInt_bytes h _ hm with h1 | h1 | h1
  · exact absurd h1 (by decide)
  · exact absurd h1 (by decide)
  · exact absurd h1 (by unfold isDigitByte; decide)

theorem parseInt_no_dot {s : GoString} (h : (ParseInt s).2 = none) : dot ∉ s := by
  intro hm
  rcases parseInt_bytes h _ hm with h1 | h1 | h1
  · exact absurd h1 (by decide)
  · exact absurd h1 (by decide)
  · exact absurd h1 (by unfold isDigitByte; decide)

theorem digitByte_toNat {d : Nat} (hd : d < 10) : (digitByte d).toNat = 48 + d := by
  interval_cases d <;> rfl

theorem isDigitByte_digitByte {d : Nat} (hd : d < 10) : isDigitByte (digitByte d) := by
  unfold isDigitByte
  rw [digitByte_toNat hd]
  omega

theorem digitVal_digitByte {d : Nat} (hd : d < 10) : digitVal (digitByte d) = some d := by
  unfold digitVal
  rw [digitByte_toNat hd, if_pos (by omega)]
  simp

theorem formatDigits_acc (fuel u : Nat) (acc : GoString) :
    formatDigits fuel u acc = formatDigits fuel u [] ++ acc := by
  induction fuel generalizing u acc with
  | zero => simp [formatDigits]
  | succ fuel ih =>
    simp only [formatDigits]
    split
    · simp
    · rw [ih, ih (u / 10) [digitByte (u % 10)]]
      simp

theorem formatDigits_digits (fuel u : Nat) :
    ∀ c ∈ formatDigits fuel u [], isDigitByte c := by
  induction fuel generalizing u with
  | zero => simp [formatDigits]
  | succ fuel ih =>
    simp only [formatDigits]
    split
    · rename_i hu
      intro c hc
      simp at hc
      subst hc
      exact isDigitByte_digitByte hu
    · rw [formatDigits_acc]
      intro c hc
      rcases List.mem_append.1 hc with hc | hc
      · exact ih _ c hc
      · simp at hc
        subst hc
        exact isDigitByte_digitByte (Nat.mod_lt _ (by decide))

theorem formatDigits_ne_nil (fuel u : Nat) : formatDigits (fuel + 1) u [] ≠ [] := by
  simp only [formatDigits]
  split
  · simp
  · rw [formatDigits_acc]
    simp

theorem parseUintLoop_append (a b : GoString) (n : Nat) :
    parseUintLoop (a ++ b) n =
      match parseUintLoop a n with
      | (m, none) => parseUintLoop b m
      | r => r := by
  induction a generalizing n with
  | nil => simp [parseUintLoop]
  | cons c cs ih =>
    simp only [List.cons_append, parseUintLoop]
    split
    · rfl
    · split
      · rfl
      · split
        · rfl
        · split
          · rfl
          · exact ih _

theorem parseUintLoop_single {d : Nat} (hd : d < 10) {n : Nat}
    (hn : n * 10 + d ≤ maxUint64) :
    parseUintLoop [digitByte d] n = (n * 10 + d, none) := by
  have h1 : ¬ cutoff10 ≤ n := by
    simp only [cutoff10, maxUint64] at *
    omega
  have h2 : n * 10 % 2 ^ 64 = n * 10 := by
    apply Nat.mod_eq_of_lt
    simp only [maxUint64] at hn
    omega
  have h3 : (n * 10 + d) % 2 ^ 64 = n * 10 + d := by
    apply Nat.mod_eq_of_lt
    simp only [maxUint64] at hn
    omega
  simp only [parseUintLoop, digitVal_digitByte hd, h2, h3]
  rw [if_neg (by omega), if_neg h1, if_neg (by omega)]

theorem parseUintLoop_formatDigits (fuel u : Nat) (hf : u < 10 ^ (fuel + 1))
    (hu : u ≤ maxUint64) :
    parseUintLoop (formatDigits (fuel + 1) u []) 0 = (u, none) := by
  induction fuel generalizing u with
  | zero =>
    have h10 : u < 10 := by simpa using hf
    simp only [formatDigits, if_pos h10]
    simpa using parseUintLoop_single h10 (n := 0) (by simpa using hu)
  | succ fuel ih =>
    rw [formatDigits]
    split
    · rename_i h10
      simpa using parseUintLoop_single h10 (n := 0) (by simpa using hu)
    · rename_i h10
      have hq : u / 10 < 10 ^ (fuel + 1) := by
        rw [Nat.div_lt_iff_lt_mul (by decide)]
        rw [pow_succ] at hf
        exact hf
      have hq2 : u / 10 ≤ maxUint64 := le_trans (Nat.div_le_self _ _) hu
      rw [formatDigits_acc, parseUintLoop_append, ih _ hq hq2]
      simp only
      have := parseUintLoop_single (d := u % 10) (Nat.mod_lt _ (by decide)) (n := u / 10)
        (by omega)
      rw [this]
      congr 1
      omega

theorem formatInt_nonneg {i : Int} (h0 : 0 ≤ i) (hi : isInt64 i) :
    FormatInt i = decimal i.toNat := by
  have hneg : decide (i < 0) = false := by simpa using h0
  have hu : toUint64 i = i.toNat := by
    unfold toUint64
    unfold isInt64 maxInt64 at hi
    congr 1
    omega
  simp [FormatInt, formatBits, hneg, hu, decimal]

theorem formatInt_neg {i : Int} (h0 : i < 0) (hi : isInt64 i) :
    FormatInt i = minus :: decimal (-i).toNat := by
  have hneg : decide (i < 0) = true := by simpa using h0
  have hu : (2 ^ 64 - toUint64 i) % 2 ^ 64 = (-i).toNat := by
    unfold toUint64
    unfold isInt64 minInt64 at hi
    omega
  simp only [FormatInt, formatBits, hneg, if_true, hu, decimal]

theorem decimal_digits (u : Nat) : ∀ c ∈ decimal u, isDigitByte c :=
  formatDigits_digits 65 u

theorem decimal_ne_nil (u : Nat) : decimal u ≠ [] := formatDigits_ne_nil 64 u

theorem parseUint_decimal {u : Nat} (hu : u ≤ maxUint64) :
    ParseUint (decimal u) = (u, none) := by
  unfold ParseUint
  rw [if_neg (decimal_ne_nil u)]
  apply parseUintLoop_formatDigits 64 u _ hu
  unfold maxUint64 at hu
  omega

theorem wrapInt64_of_isInt64 {x : Int} (h : isInt64 x) : wrapInt64 x = x := by
  unfold isInt64 minInt64 maxInt64 at h
  unfold wrapInt64
  omega

theorem parseInt_decimal {u : Nat} (hu : u < 2 ^ 63) :
    ParseInt (decimal u) = ((u : Int), none) := by
  have hp := parseUint_decimal (u := u) (by unfold maxUint64; omega)
  have hw : wrapInt64 (u : Int) = u := by unfold wrapInt64; omega
  have hlt : ¬ (9223372036854775808 ≤ u) := by omega
  cases hs : decimal u with
  | nil => exact absurd hs (decimal_ne_nil _)
  | cons c cs =>
    have hc : isDigitByte c := decimal_digits u c (by simp [hs])
    have h43 : c ≠ plus := by
      rintro rfl; revert hc; unfold isDigitByte; decide
    have h45 : c ≠ minus := by
      rintro rfl; revert hc; unfold isDigitByte; decide
    rw [hs] at hp
    simp [ParseInt, h43, h45, hp, hlt, hw]

theorem parseInt_minus_decimal {u : Nat} (hu : u ≤ 2 ^ 63) :
    ParseInt (minus :: decimal u) = (-(u : Int), none) := by
  have hp := parseUint_decimal (u := u) (by unfold maxUint64; omega)
  have hw : wrapInt64 (-wrapInt64 (u : Int)) = -(u : Int) := by unfold wrapInt64; omega
  have hlt : ¬ (9223372036854775808 < u) := by omega
  simp [ParseInt, hp, hlt, hw]

/-- Parsing the decimal rendering of an `int64` gives the number back. -/
theorem parseInt_formatInt {i : Int} (hi : isInt64 i) : ParseInt (FormatInt i) = (i, none) := by
  have hr := hi
  unfold isInt64 minInt64 maxInt64 at hr
  by_cases h0 : 0 ≤ i
  · rw [formatInt_nonneg h0 hi, parseInt_decimal (by omega), Int.toNat_of_nonneg h0]
  · rw [formatInt_neg (by omega) hi, parseInt_minus_decimal (by omega),
      Int.toNat_of_nonneg (by omega)]
    simp

theorem formatInt_bytes (i : Int) : ∀ c ∈ FormatInt i, c = minus ∨ isDigitByte c := by
  intro c hc
  unfold FormatInt formatBits at hc
  simp only at hc
  split at hc
  · rcases List.mem_cons.1 hc with rfl | hc
    · exact Or.inl rfl
    · exact Or.inr (formatDigits_digits _ _ c hc)
  · exact Or.inr (formatDigits_digits _ _ c hc)

theorem formatInt_ne_nil (i : Int) : FormatInt i ≠ [] := by
  unfold FormatInt formatBits
  simp only
  split
  · simp
  · exact formatDigits_ne_nil 64 _

theorem formatInt_no_slash (i : Int) : slash ∉ FormatInt i := by
  intro hm
  rcases formatInt_bytes i _ hm with h1 | h1
  · exact absurd h1 (by decide)
  · exact absurd h1 (by unfold isDigitByte; decide)

theorem formatInt_no_dot (i : Int) : dot ∉ FormatInt i := by
  intro hm
  rcases formatInt_bytes i _ hm with h1 | h1
  · exact absurd h1 (by decide)
  · exact absurd h1 (by unfold isDigitByte; decide)

theorem formatInt_ne_latest (i : Int) : FormatInt i ≠ str "latest" := by
  intro he
  have hm : (108 : UInt8) ∈ FormatInt i := by rw [he]; decide
  rcases formatInt_bytes i _ hm with h1 | h1
  · exact absurd h1 (by decide)
  · exact absurd h1 (by unfold isDigitByte; decide)

/-! ## Evaluating `ParseKey` on a path given by its segments -/

theorem slash_ne_dot : slash ≠ dot := by decide

theorem str_slash : str "/" = [slash] := by decide

theorem str_dot : str "." = [dot] := by decide

theorem keySegments_two {kt name : GoString} (h1 : slash ∉ kt)
    (h2 : slash ∉ name) :
    keySegments (Split (kt ++ str "/" ++ name) slash) = some (kt, [], name) := by
  rw [str_slash, List.append_assoc, List.singleton_append, split_append_sep _ h1,
    split_of_not_mem h2]
  rfl

theorem keySegments_three {kt pre name : GoString} (h1 : slash ∉ kt)
    (h2 : slash ∉ pre) (h3 : slash ∉ name) :
    keySegments (Split (kt ++ str "/" ++ pre ++ str "/" ++ name) slash) = some (kt, pre, name) := by
  rw [str_slash]
  simp only [List.append_assoc, List.singleton_append, List.cons_append, List.nil_append]
  rw [split_append_sep _ h1, split_append_sep _ h2, split_of_not_mem h3]
  rfl

theorem split_name {stem ext : GoString} (h1 : dot ∉ stem)
    (h2 : dot ∉ ext) :
    Split (stem ++ str "." ++ ext) dot = [stem, ext] := by
  rw [str_dot, List.append_assoc, List.singleton_append, split_append_sep _ h1,
    split_of_not_mem h2]

theorem keyTypes_distinct :
    Snapshot ≠ Compacted ∧ Snapshot ≠ Implicit ∧ Snapshot ≠ Messages ∧
    Compacted ≠ Snapshot ∧ Compacted ≠ Implicit ∧ Compacted ≠ Messages ∧
    Implicit ≠ Snapshot ∧ Implicit ≠ Compacted ∧ Implicit ≠ Messages ∧
    Messages ≠ Snapshot ∧ Messages ≠ Compacted ∧ Messages ≠ Implicit ∧
    str "car" ≠ str "json" ∧ str "json" ≠ str "car" := by decide

theorem mem_keyTypeMap {kt : KeyType} :
    kt ∈ KeyTypeMap ↔ kt = Snapshot ∨ kt = Compacted ∨ kt = Implicit ∨ kt = Messages := by
  simp [KeyTypeMap]

theorem keyType_no_slash {kt : KeyType} (h : kt ∈ KeyTypeMap) : slash ∉ kt := by
  rcases mem_keyTypeMap.1 h with rfl | rfl | rfl | rfl <;> decide

theorem expectedSuffix_clean (kt : KeyType) :
    slash ∉ expectedSuffix kt ∧ dot ∉ expectedSuffix kt := by
  unfold expectedSuffix
  split <;> decide

/-- Evaluation of `ParseKey` once the path has split into a recognized type, a prefix and
a name `stem.ext` whose stem gives the height `h`: what remains is the suffix
check followed by the prefix check. -/
theorem parseKey_of_segments {key kt pre name stem ext : GoString} {h : Int}
    (hseg : keySegments (Split key slash) = some (kt, pre, name))
    (hk : kt ∈ KeyTypeMap) (hname : Split name dot = [stem, ext])
    (hh : (if stem = str "latest" then ((-1 : Int), (none : Option NumError))
      else ParseInt stem) = (h, none)) :
    ParseKey key =
      if ext ≠ expectedSuffix kt then .error (.invalidKeySuffix ext (expectedSuffix kt))
      else if kt = Snapshot then
        (if pre ≠ [] then .error (.invalidKeyPrefix pre []) else .ok (NewKey h kt))
      else if pre ≠ FormatInt (shardOf h) then
        .error (.invalidKeyPrefix pre (FormatInt (shardOf h)))
      else .ok (NewKey h kt) := by
  simp only [ParseKey, hseg, hname, hh]
  rcases mem_keyTypeMap.1 hk with rfl | rfl | rfl | rfl <;>
    simp [expectedSuffix, keyTypes_distinct, hk]

/-- A stem that is `latest` or is accepted by `ParseInt` contains neither
`/` nor `.`, and yields a height. -/
theorem stem_height {stem : GoString}
    (h : stem = str "latest" ∨ (ParseInt stem).2 = none) :
    slash ∉ stem ∧ dot ∉ stem ∧
      ∃ ht : Int, (if stem = str "latest" then ((-1 : Int), (none : Option NumError))
        else ParseInt stem) = (ht, none) := by
  by_cases hl : stem = str "latest"
  · subst hl
    exact ⟨by decide, by decide, -1, by simp⟩
  · have hp : (ParseInt stem).2 = none := h.resolve_left hl
    refine ⟨parseInt_no_slash hp, parseInt_no_dot hp, (ParseInt stem).1, ?_⟩
    rw [if_neg hl, ← hp]

theorem formatInt_height {h : Int} (hi : isInt64 h) :
    (if FormatInt h = str "latest" then ((-1 : Int), (none : Option NumError))
      else ParseInt (FormatInt h)) = (h, none) := by
  rw [if_neg (formatInt_ne_latest h), parseInt_formatInt hi]

/-- Output of `KeyBuilder` without a shard segment, for a recognized type. -/
theorem keyBuilder_flat {kt : KeyType} (hk : kt ∈ KeyTypeMap) (h : Int) :
    KeyBuilder kt h false = kt ++ str "/" ++ (FormatInt h ++ str "." ++ expectedSuffix kt) := by
  have e1 : str ".car" = str "." ++ str "car" := by decide
  have e2 : str ".json" = str "." ++ str "json" := by decide
  rcases mem_keyTypeMap.1 hk with rfl | rfl | rfl | rfl <;>
    simp [KeyBuilder, expectedSuffix, keyTypes_distinct, e1, e2]

/-- Output of `KeyBuilder` with a shard segment, for a recognized type. -/
theorem keyBuilder_sharded {kt : KeyType} (hk : kt ∈ KeyTypeMap) (h : Int) :
    KeyBuilder kt h true =
      kt ++ str "/" ++ FormatInt (shardOf h) ++ str "/" ++
        (FormatInt h ++ str "." ++ expectedSuffix kt) := by
  have e1 : str ".car" = str "." ++ str "car" := by decide
  have e2 : str ".json" = str "." ++ str "json" := by decide
  rcases mem_keyTypeMap.1 hk with rfl | rfl | rfl | rfl <;>
    simp [KeyBuilder, expectedSuffix, keyTypes_distinct, e1, e2]

theorem name_no_slash (h : Int) (kt : KeyType) :
    slash ∉ FormatInt h ++ str "." ++ expectedSuffix kt := by
  simp [formatInt_no_slash, (expectedSuffix_clean kt).1, str_dot, slash_ne_dot]

/-- Round trip through the canonical encoding, for every `int64` height. -/
theorem parseKey_default_eq {kt : KeyType} (hk : kt ∈ KeyTypeMap) {h : Int} (hi : isInt64 h) :
    ParseKey (NewKey h kt).Default = .ok (NewKey h kt) := by
  show ParseKey (if kt = Snapshot then KeyBuilder kt h false else KeyBuilder kt h true) = _
  by_cases hsn : kt = Snapshot
  · have hseg := keySegments_two (keyType_no_slash hk) (name_no_slash h kt)
    rw [if_pos hsn, keyBuilder_flat hk,
      parseKey_of_segments hseg hk
        (split_name (formatInt_no_dot h) (expectedSuffix_clean _).2) (formatInt_height hi)]
    simp [hsn]
  · have hseg := keySegments_three (keyType_no_slash hk)
      (formatInt_no_slash (shardOf h)) (name_no_slash h kt)
    rw [if_neg hsn, keyBuilder_sharded hk,
      parseKey_of_segments hseg hk
        (split_name (formatInt_no_dot h) (expectedSuffix_clean _).2) (formatInt_height hi)]
    simp [hsn]

theorem keySegments_some {l : List GoString} {kt pre name : GoString}
    (h : keySegments l = some (kt, pre, name)) :
    (l = [kt, name] ∧ pre = []) ∨ l = [kt, pre, name] := by
  unfold keySegments at h
  split at h
  · simp at h
    obtain ⟨rfl, rfl, rfl⟩ := h
    exact Or.inl ⟨rfl, rfl⟩
  · simp at h
    obtain ⟨rfl, rfl, rfl⟩ := h
    exact Or.inr rfl
  · simp at h

/-- Inversion of a successful `ParseKey`: every check of the source passed. -/
theorem parseKey_ok {s : GoString} {k : Key} (hok : ParseKey s = .ok k) :
    ∃ kt pre name stem ext h,
      keySegments (Split s slash) = some (kt, pre, name) ∧ kt ∈ KeyTypeMap ∧
      Split name dot = [stem, ext] ∧
      (if stem = str "latest" then ((-1 : Int), (none : Option NumError))
        else ParseInt stem) = (h, none) ∧
      ext = expectedSuffix kt ∧
      (kt = Snapshot → pre = []) ∧ (kt ≠ Snapshot → pre = FormatInt (shardOf h)) ∧
      k = NewKey h kt := by
  unfold ParseKey at hok
  split at hok
  · simp at hok
  · rename_i kt pre name hseg
    split at hok
    · simp at hok
    · rename_i hk
      simp only [not_not] at hk
      split at hok
      · rename_i stem ext hname
        simp only at hok
        split at hok
        · simp at hok
        · rename_i h hh
          refine ⟨kt, pre, name, stem, ext, h, hseg, hk, hname, hh, ?_⟩
          rcases mem_keyTypeMap.1 hk with rfl | rfl | rfl | rfl <;>
            simp only [keyTypes_distinct, expectedSuffix, or_false, false_or, or_true, true_or,
              true_and, false_and, if_false, if_true, ne_eq, not_false_eq_true, implies_true,
              not_true_eq_false, false_implies, true_implies] at hok ⊢
          all_goals
            split at hok
            · simp at hok
            · split at hok
              · simp at hok
              · rename_i he hp
                simp only [not_not] at he hp
                simp only [Except.ok.injEq] at hok
                exact ⟨he, hp, hok.symm⟩
      · simp at hok

/-- Truncated quotient by ten thousand in terms of the floor quotient. -/
theorem tdiv_splitWidth (h : Int) :
    Int.tdiv h 10000 = if 0 ≤ h then h / 10000 else -((-h) / 10000) := by
  split
  · rename_i h0
    exact Int.tdiv_eq_ediv h0 (by decide)
  · rename_i h0
    have h1 : 0 ≤ -h := by omega
    have := Int.tdiv_eq_ediv h1 (show (0 : Int) ≤ 10000 by decide)
    rw [Int.neg_tdiv] at this
    omega

/-- The division `h / splitWidth` does not overflow `int64`. -/
theorem shardOf_eq {h : Int} (hi : isInt64 h) : shardOf h = Int.tdiv h 10000 := by
  unfold shardOf splitWidth
  apply wrapInt64_of_isInt64
  rw [tdiv_splitWidth]
  unfold isInt64 minInt64 maxInt64 at *
  split <;> omega

theorem fdiv_eq_tdiv_of {h : Int} (hh : 0 ≤ h ∨ (10000 : Int) ∣ h) :
    Int.fdiv h 10000 = Int.tdiv h 10000 := by
  rw [Int.fdiv_eq_ediv h (by decide), tdiv_splitWidth]
  split
  · rfl
  · rcases hh with hh | hh
    · omega
    · omega

/-- Path of a sharded key with an arbitrary shard segment `p`. -/
theorem parseKey_sharded_path {t p : GoString} {h : Int} (ht : isSharded t)
    (hi : isInt64 h) (hp : slash ∉ p) :
    ParseKey (t ++ str "/" ++ p ++ str "/" ++ (FormatInt h ++ str "." ++ expectedSuffix t)) =
      if p ≠ FormatInt (Int.tdiv h 10000) then
        .error (.invalidKeyPrefix p (FormatInt (Int.tdiv h 10000)))
      else .ok (NewKey h t) := by
  have hk : t ∈ KeyTypeMap := by
    rw [mem_keyTypeMap]; exact Or.inr ht
  have hsn : t ≠ Snapshot := by
    rcases ht with rfl | rfl | rfl <;> decide
  have hseg := keySegments_three (keyType_no_slash hk) hp (name_no_slash h t)
  rw [parseKey_of_segments hseg hk
    (split_name (formatInt_no_dot h) (expectedSuffix_clean _).2) (formatInt_height hi),
    shardOf_eq hi]
  simp [hsn]

/-- C1: round trip under the canonical encoding. For each of the four types
`Snapshot`, `Compacted`, `Implicit`, `Messages` and every `int64` height
`h ≥ 0`, `ParseKey` of `NewKey(h, t).Default()` succeeds and returns a key whose
`Height()` is `h` and whose `Type()` is `t`. -/
theorem parseKey_default_roundtrip (t : KeyType) (h : Int)
    (ht : t = Snapshot ∨ t = Compacted ∨ t = Implicit ∨ t = Messages)
    (h0 : 0 ≤ h) (hmax : h ≤ maxInt64) :
    ∃ k, ParseKey (NewKey h t).Default = .ok k ∧ k.Height = h ∧ k.Type = t := by
  have hi : isInt64 h := ⟨le_trans (by decide) h0, hmax⟩
  exact ⟨NewKey h t, parseKey_default_eq (mem_keyTypeMap.2 ht) hi, rfl, rfl⟩

/-- Instance of C1 at `Compacted` and height 50123, whose canonical path is
`compacted/5/50123.car`. -/
theorem parseKey_default_roundtrip_witness :
    (NewKey 50123 Compacted).Default = str "compacted/5/50123.car" ∧
    (Compacted = Snapshot ∨ Compacted = Compacted ∨ Compacted = Implicit ∨
      Compacted = Messages) ∧
    (0 : Int) ≤ 50123 ∧ (50123 : Int) ≤ maxInt64 ∧
    ∃ k, ParseKey (NewKey 50123 Compacted).Default = .ok k ∧ k.Height = 50123 ∧
      k.Type = Compacted :=
  ⟨by decide, by decide, by decide, by decide,
    parseKey_default_roundtrip Compacted 50123 (by decide) (by decide) (by decide)⟩

/-- C2: shard mismatch is rejected. For a sharded type `t` (`Compacted`,
`Implicit`, `Messages`), an `int64` height `h` and a shard segment `p` without
`/` that differs from the decimal rendering of `h / 10000` (truncated toward
zero), `ParseKey` of `<t>/<p>/<decimal h>.<expected suffix of t>` fails with the
invalid-key-prefix error, which reports `p` as given and the decimal rendering
of `h / 10000` as expected. -/
theorem parseKey_shard_mismatch (t : KeyType) (h : Int) (p : GoString)
    (ht : isSharded t) (hi : isInt64 h) (hp : slash ∉ p)
    (hne : p ≠ FormatInt (Int.tdiv h 10000)) :
    ParseKey (t ++ str "/" ++ p ++ str "/" ++ (FormatInt h ++ str "." ++ expectedSuffix t)) =
      .error (.invalidKeyPrefix p (FormatInt (Int.tdiv h 10000))) := by
  rw [parseKey_sharded_path ht hi hp, if_pos hne]

/-- Instance of C2: `compacted/4/50123.car` is rejected, expected prefix `5`. -/
theorem parseKey_shard_mismatch_witness :
    Compacted ++ str "/" ++ str "4" ++ str "/" ++
      (FormatInt 50123 ++ str "." ++ expectedSuffix Compacted) = str "compacted/4/50123.car" ∧
    FormatInt (Int.tdiv 50123 10000) = str "5" ∧
    isSharded Compacted ∧ isInt64 50123 ∧ slash ∉ str "4" ∧
    str "4" ≠ FormatInt (Int.tdiv 50123 10000) ∧
    ParseKey (Compacted ++ str "/" ++ str "4" ++ str "/" ++
      (FormatInt 50123 ++ str "." ++ expectedSuffix Compacted)) =
      .error (.invalidKeyPrefix (str "4") (FormatInt (Int.tdiv 50123 10000))) :=
  ⟨by decide, by decide, by decide, by decide, by decide, by decide,
    parseKey_shard_mismatch Compacted 50123 (str "4") (by decide) (by decide) (by decide)
      (by decide)⟩

/-- C3, refuted as stated: at height `-1` the floor of `-1 / 10000` is `-1`, so
the shard segment `0` is not its decimal rendering, and yet `ParseKey` accepts
the path of type `compacted`, shard segment `0` and name `-1.car`. -/
theorem parseKey_shard_floor_counterexample :
    isSharded Compacted ∧ isInt64 (-1) ∧
    Compacted ++ str "/" ++ str "0" ++ str "/" ++
      (FormatInt (-1) ++ str "." ++ expectedSuffix Compacted) = str "compacted/0/-1.car" ∧
    str "0" ≠ FormatInt (Int.fdiv (-1) 10000) ∧
    ParseKey (str "compacted/0/-1.car") = .ok (NewKey (-1) Compacted) := by
  decide

/-- C3, amended: for a sharded type and an `int64` height `h`, take a
well-formed path `<type>/<p>/<h>.<suffix>` whose shard segment `p` is not the
decimal rendering of `floor(h / 10000)`. If `h` is negative and not a multiple
of 10000 and `p` is the decimal rendering of `h / 10000` truncated toward zero,
`ParseKey` succeeds with `(h, type)`; in every other case it fails with the
invalid-key-prefix error, the expected value being the truncated quotient. -/
theorem parseKey_shard_floor (t : KeyType) (h : Int) (p : GoString)
    (ht : isSharded t) (hi : isInt64 h) (hp : slash ∉ p)
    (hne : p ≠ FormatInt (Int.fdiv h 10000)) :
    ((h < 0 ∧ ¬ (10000 : Int) ∣ h ∧ p = FormatInt (Int.tdiv h 10000)) →
      ParseKey (t ++ str "/" ++ p ++ str "/" ++
        (FormatInt h ++ str "." ++ expectedSuffix t)) = .ok (NewKey h t)) ∧
    (¬ (h < 0 ∧ ¬ (10000 : Int) ∣ h ∧ p = FormatInt (Int.tdiv h 10000)) →
      ParseKey (t ++ str "/" ++ p ++ str "/" ++
        (FormatInt h ++ str "." ++ expectedSuffix t)) =
        .error (.invalidKeyPrefix p (FormatInt (Int.tdiv h 10000)))) := by
  rw [parseKey_sharded_path ht hi hp]
  constructor
  · rintro ⟨-, -, hpt⟩
    simp [hpt]
  · intro hex
    have hpt : p ≠ FormatInt (Int.tdiv h 10000) := by
      intro hpt
      by_cases hh : 0 ≤ h ∨ (10000 : Int) ∣ h
      · rw [fdiv_eq_tdiv_of hh] at hne
        exact hne hpt
      · exact hex ⟨by omega, fun hd => hh (Or.inr hd), hpt⟩
    rw [if_pos hpt]

/-- Instances of amended C3: at `messages`, height 50123 and shard segment `4`
the parse fails with expected prefix `5`; at `compacted`, height -1 and shard
segment `0` (the floor being -1) the parse succeeds. The last three conjuncts
evaluate `ParseKey` on these paths, and on the path with the floor `-1` as
shard segment, which is rejected. -/
theorem parseKey_shard_floor_witness :
    isSharded Messages ∧ isInt64 50123 ∧ slash ∉ str "4" ∧
    str "4" ≠ FormatInt (Int.fdiv 50123 10000) ∧
    ¬ ((50123 : Int) < 0 ∧ ¬ (10000 : Int) ∣ 50123 ∧
      str "4" = FormatInt (Int.tdiv 50123 10000)) ∧
    ParseKey (Messages ++ str "/" ++ str "4" ++ str "/" ++
      (FormatInt 50123 ++ str "." ++ expectedSuffix Messages)) =
      .error (.invalidKeyPrefix (str "4") (FormatInt (Int.tdiv 50123 10000))) ∧
    FormatInt (Int.tdiv 50123 10000) = str "5" ∧
    isSharded Compacted ∧ isInt64 (-1) ∧ slash ∉ str "0" ∧
    str "0" ≠ FormatInt (Int.fdiv (-1) 10000) ∧
    ((-1 : Int) < 0 ∧ ¬ (10000 : Int) ∣ (-1) ∧ str "0" = FormatInt (Int.tdiv (-1) 10000)) ∧
    ParseKey (Compacted ++ str "/" ++ str "0" ++ str "/" ++
      (FormatInt (-1) ++ str "." ++ expectedSuffix Compacted)) = .ok (NewKey (-1) Compacted) ∧
    ParseKey (str "messages/4/50123.json") = .error (.invalidKeyPrefix (str "4") (str "5")) ∧
    ParseKey (str "compacted/0/-1.car") = .ok (NewKey (-1) Compacted) ∧
    ParseKey (str "compacted/-1/-1.car") = .error (.invalidKeyPrefix (str "-1") (str "0")) :=
  ⟨by decide, by decide, by decide, by decide, by decide,
    (parseKey_shard_floor Messages 50123 (str "4") (by decide) (by decide) (by decide)
      (by decide)).2 (by decide),
    by decide, by decide, by decide, by decide, by decide, by decide,
    (parseKey_shard_floor Compacted (-1) (str "0") (by decide) (by decide) (by decide)
      (by decide)).1 (by decide),
    by decide, by decide, by decide⟩

theorem keySegments_none {l : List GoString} (h2 : l.length ≠ 2) (h3 : l.length ≠ 3) :
    keySegments l = none := by
  match l with
  | [] => rfl
  | [_] => rfl
  | [_, _] => simp at h2
  | [_, _, _] => simp at h3
  | _ :: _ :: _ :: _ :: _ => rfl

/-- C4: a snapshot path with a non-empty shard segment is rejected. For every
non-empty `p` without `/` and every stem that is `latest` or is accepted by
`ParseInt` as a base-10 `int64`, `ParseKey` of `snapshot/<p>/<stem>.car` fails
with the invalid-key-prefix error (given `p`, expected the empty string). -/
theorem parseKey_snapshot_shard_rejected (p stem : GoString) (hne : p ≠ [])
    (hp : slash ∉ p) (hs : stem = str "latest" ∨ (ParseInt stem).2 = none) :
    ParseKey (Snapshot ++ str "/" ++ p ++ str "/" ++ (stem ++ str "." ++ str "car")) =
      .error (.invalidKeyPrefix p []) := by
  obtain ⟨hs1, hs2, h, hh⟩ := stem_height hs
  have hk : Snapshot ∈ KeyTypeMap := by decide
  have hn : slash ∉ stem ++ str "." ++ str "car" := by
    have : slash ∉ str "." ++ str "car" := by decide
    simpa [List.append_assoc, hs1] using this
  have hseg := keySegments_three (keyType_no_slash hk) hp hn
  rw [parseKey_of_segments hseg hk (split_name hs2 (by decide)) hh]
  have he : str "car" = expectedSuffix Snapshot := by decide
  simp [he, hne]

/-- Instance of C4: `snapshot/0/5.car` is rejected with the prefix error. -/
theorem parseKey_snapshot_shard_rejected_witness :
    Snapshot ++ str "/" ++ str "0" ++ str "/" ++ (str "5" ++ str "." ++ str "car") =
      str "snapshot/0/5.car" ∧
    str "0" ≠ [] ∧ slash ∉ str "0" ∧
    (str "5" = str "latest" ∨ (ParseInt (str "5")).2 = none) ∧
    ParseKey (Snapshot ++ str "/" ++ str "0" ++ str "/" ++ (str "5" ++ str "." ++ str "car")) =
      .error (.invalidKeyPrefix (str "0") []) :=
  ⟨by decide, by decide, by decide, by decide,
    parseKey_snapshot_shard_rejected (str "0") (str "5") (by decide) (by decide) (by decide)⟩

/-- C5, refuted as stated: `ParseKey` accepts `snapshot//5.car` as the
`Snapshot` key of height 5, and this path splits on `/` into 3 components, the
middle one empty. -/
theorem parseKey_snapshot_components_counterexample :
    ParseKey (str "snapshot//5.car") = .ok (NewKey 5 Snapshot) ∧
    (NewKey 5 Snapshot).Type = Snapshot ∧
    Split (str "snapshot//5.car") slash = [str "snapshot", [], str "5.car"] ∧
    (Split (str "snapshot//5.car") slash).length ≠ 2 := by
  decide

/-- C5, amended: if `ParseKey(s)` succeeds and returns a key of type
`Snapshot`, then `s` split on `/` is either the 2 components `snapshot`, `name`
or the 3 components `snapshot`, empty string, `name`; a snapshot path never
carries a non-empty shard segment. -/
theorem parseKey_snapshot_components (s : GoString) (k : Key)
    (hok : ParseKey s = .ok k) (hty : k.Type = Snapshot) :
    ∃ name, Split s slash = [Snapshot, name] ∨ Split s slash = [Snapshot, [], name] := by
  obtain ⟨kt, pre, name, stem, ext, h, hseg, -, -, -, -, hsn, -, hk⟩ := parseKey_ok hok
  have hkt : kt = Snapshot := by
    rw [hk] at hty
    exact hty
  have hpre : pre = [] := hsn hkt
  subst hkt hpre
  rcases keySegments_some hseg with ⟨hl, -⟩ | hl
  · exact ⟨name, Or.inl hl⟩
  · exact ⟨name, Or.inr hl⟩

/-- Instance of amended C5 at `snapshot/123.car`. -/
theorem parseKey_snapshot_components_witness :
    ParseKey (str "snapshot/123.car") = .ok (NewKey 123 Snapshot) ∧
    (NewKey 123 Snapshot).Type = Snapshot ∧
    ∃ name, Split (str "snapshot/123.car") slash = [Snapshot, name] ∨
      Split (str "snapshot/123.car") slash = [Snapshot, [], name] :=
  ⟨by decide, by decide,
    parseKey_snapshot_components (str "snapshot/123.car") (NewKey 123 Snapshot)
      (by decide) (by decide)⟩

/-- C6: sharded paths have exactly three components. If `ParseKey(s)` succeeds
and returns a key of a sharded type (`Compacted`, `Implicit`, `Messages`), then
`s` split on `/` has exactly 3 components; and every 2-component path
`<t>/<stem>.<suffix>` with a sharded type, a valid stem and the expected
suffix is rejected with the invalid-key-prefix error, the given prefix being
empty and the expected one (the decimal rendering of a shard) non-empty. -/
theorem parseKey_sharded_components (s : GoString) (t : KeyType) (ht : isSharded t) :
    (∀ k, ParseKey s = .ok k → k.Type = t → (Split s slash).length = 3) ∧
    (∀ name stem, Split s slash = [t, name] → Split name dot = [stem, expectedSuffix t] →
      (stem = str "latest" ∨ (ParseInt stem).2 = none) →
      ∃ e, e ≠ [] ∧ ParseKey s = .error (.invalidKeyPrefix [] e)) := by
  have hk : t ∈ KeyTypeMap := mem_keyTypeMap.2 (Or.inr ht)
  have hsn : t ≠ Snapshot := by
    rcases ht with rfl | rfl | rfl <;> decide
  constructor
  · intro k hok hty
    obtain ⟨kt, pre, name, stem, ext, h, hseg, -, -, -, -, -, hpre, hkey⟩ := parseKey_ok hok
    have hkt : kt = t := by
      rw [hkey] at hty
      exact hty
    subst hkt
    rcases keySegments_some hseg with ⟨-, hnil⟩ | hl
    · exact absurd ((hpre hsn).symm.trans hnil) (formatInt_ne_nil _)
    · rw [hl]; rfl
  · intro name stem hsp hname hs
    obtain ⟨-, -, h, hh⟩ := stem_height hs
    have hseg : keySegments (Split s slash) = some (t, [], name) := by rw [hsp]; rfl
    refine ⟨FormatInt (shardOf h), formatInt_ne_nil _, ?_⟩
    rw [parseKey_of_segments hseg hk hname hh]
    simp [hsn, (formatInt_ne_nil (shardOf h)).symm]

/-- Instance of C6: `compacted/5/50123.car` parses and has 3 components, while
the 2-component `compacted/50123.car` is rejected with the prefix error. -/
theorem parseKey_sharded_components_witness :
    isSharded Compacted ∧
    ParseKey (str "compacted/5/50123.car") = .ok (NewKey 50123 Compacted) ∧
    (Split (str "compacted/5/50123.car") slash).length = 3 ∧
    ∃ e, e ≠ [] ∧ ParseKey (str "compacted/50123.car") = .error (.invalidKeyPrefix [] e) :=
  ⟨by decide, by decide,
    (parseKey_sharded_components (str "compacted/5/50123.car") Compacted (by decide)).1
      (NewKey 50123 Compacted) (by decide) (by decide),
    (parseKey_sharded_components (str "compacted/50123.car") Compacted (by decide)).2
      (str "50123.car") (str "50123") (by decide) (by decide) (by decide)⟩

/-- C7: suffix enforcement. For a recognized type `t`, a stem that is `latest`
or is accepted by `ParseInt` as a base-10 `int64`, and a suffix `x` without
`.` and `/` that differs from the expected suffix of `t` (`json` for
`Messages` and `Implicit`, `car` for `Snapshot` and `Compacted`), `ParseKey`
fails with the invalid-key-suffix error (given `x`, expected the suffix of `t`)
on the 2-segment path `<t>/<stem>.<x>` and on every 3-segment path
`<t>/<p>/<stem>.<x>`, whatever the shard segment `p` is. -/
theorem parseKey_suffix_mismatch (t : KeyType) (stem x : GoString)
    (ht : t = Snapshot ∨ t = Compacted ∨ t = Implicit ∨ t = Messages)
    (hs : stem = str "latest" ∨ (ParseInt stem).2 = none)
    (hx1 : dot ∉ x) (hx2 : slash ∉ x) (hne : x ≠ expectedSuffix t) :
    ParseKey (t ++ str "/" ++ (stem ++ str "." ++ x)) =
        .error (.invalidKeySuffix x (expectedSuffix t)) ∧
      ∀ p : GoString, slash ∉ p →
        ParseKey (t ++ str "/" ++ p ++ str "/" ++ (stem ++ str "." ++ x)) =
          .error (.invalidKeySuffix x (expectedSuffix t)) := by
  obtain ⟨hs1, hs2, h, hh⟩ := stem_height hs
  have hk : t ∈ KeyTypeMap := mem_keyTypeMap.2 ht
  have hn : slash ∉ stem ++ str "." ++ x := by
    simp [hs1, hx2, str_dot, slash_ne_dot]
  constructor
  · have hseg := keySegments_two (keyType_no_slash hk) hn
    rw [parseKey_of_segments hseg hk (split_name hs2 hx1) hh, if_pos hne]
  · intro p hp
    have hseg := keySegments_three (keyType_no_slash hk) hp hn
    rw [parseKey_of_segments hseg hk (split_name hs2 hx1) hh, if_pos hne]

/-- Instance of C7: `messages/0/5.car` is rejected, `json` being expected. -/
theorem parseKey_suffix_mismatch_witness :
    Messages ++ str "/" ++ str "0" ++ str "/" ++ (str "5" ++ str "." ++ str "car") =
      str "messages/0/5.car" ∧
    expectedSuffix Messages = str "json" ∧
    (str "5" = str "latest" ∨ (ParseInt (str "5")).2 = none) ∧
    dot ∉ str "car" ∧ slash ∉ str "car" ∧
    str "car" ≠ expectedSuffix Messages ∧ slash ∉ str "0" ∧
    ParseKey (Messages ++ str "/" ++ str "0" ++ str "/" ++ (str "5" ++ str "." ++ str "car")) =
      .error (.invalidKeySuffix (str "car") (expectedSuffix Messages)) :=
  ⟨by decide, by decide, by decide, by decide, by decide, by decide, by decide,
    (parseKey_suffix_mismatch Messages (str "5") (str "car") (by decide) (by decide)
      (by decide) (by decide) (by decide)).2 (str "0") (by decide)⟩

/-- C8: sentinel parsing. The stem `latest` maps to height -1: for each sharded
type the path `<t>/0/latest.<suffix of t>` parses to the key of height -1 and
type `t` (shard `0` matches because -1 / 10000 truncates to 0), and
`snapshot/latest.car` parses to the `Snapshot` key of height -1. -/
theorem parseKey_latest :
    (∃ k, ParseKey (str "messages/0/latest.json") = .ok k ∧ k.Height = -1 ∧
      k.Type = Messages) ∧
    (∃ k, ParseKey (str "implicit/0/latest.json") = .ok k ∧ k.Height = -1 ∧
      k.Type = Implicit) ∧
    (∃ k, ParseKey (str "compacted/0/latest.car") = .ok k ∧ k.Height = -1 ∧
      k.Type = Compacted) ∧
    (∃ k, ParseKey (str "snapshot/latest.car") = .ok k ∧ k.Height = -1 ∧
      k.Type = Snapshot) ∧
    FormatInt (shardOf (-1)) = str "0" :=
  ⟨⟨NewKey (-1) Messages, by decide, rfl, rfl⟩, ⟨NewKey (-1) Implicit, by decide, rfl, rfl⟩,
    ⟨NewKey (-1) Compacted, by decide, rfl, rfl⟩, ⟨NewKey (-1) Snapshot, by decide, rfl, rfl⟩,
    by decide⟩

/-- C9: type rejection. For every path that splits on `/` into exactly 2 or
exactly 3 segments and whose first segment `t` is none of the literal tags
`snapshot`, `compacted`, `implicit`, `messages`, `ParseKey` fails with the
invalid-key-type error, whatever the remaining segments are. -/
theorem parseKey_unknown_type (s t : GoString)
    (hlen : (Split s slash).length = 2 ∨ (Split s slash).length = 3)
    (hfirst : (Split s slash).head? = some t)
    (hty : t ≠ str "snapshot" ∧ t ≠ str "compacted" ∧ t ≠ str "implicit" ∧
      t ≠ str "messages") :
    ParseKey s = .error .invalidKeyType := by
  have hk : t ∉ KeyTypeMap := by
    rw [mem_keyTypeMap]
    rintro (h | h | h | h)
    · exact hty.1 h
    · exact hty.2.1 h
    · exact hty.2.2.1 h
    · exact hty.2.2.2 h
  have hseg : ∃ pre name, keySegments (Split s slash) = some (t, pre, name) := by
    match hl : Split s slash, hlen, hfirst with
    | [a, b], _, hf =>
      simp at hf
      subst hf
      exact ⟨[], b, rfl⟩
    | [a, b, c], _, hf =>
      simp at hf
      subst hf
      exact ⟨b, c, rfl⟩
    | [], hlen, _ => simp at hlen
    | [_], hlen, _ => simp at hlen
    | _ :: _ :: _ :: _ :: _, hlen, _ => simp at hlen
  obtain ⟨pre, name, hseg⟩ := hseg
  simp only [ParseKey, hseg, hk, not_false_eq_true, if_true]

/-- Instance of C9: `unknown/0/5.json` is rejected with the type error. -/
theorem parseKey_unknown_type_witness :
    ((Split (str "unknown/0/5.json") slash).length = 2 ∨
      (Split (str "unknown/0/5.json") slash).length = 3) ∧
    (Split (str "unknown/0/5.json") slash).head? = some (str "unknown") ∧
    (str "unknown" ≠ str "snapshot" ∧ str "unknown" ≠ str "compacted" ∧
      str "unknown" ≠ str "implicit" ∧ str "unknown" ≠ str "messages") ∧
    ParseKey (str "unknown/0/5.json") = .error .invalidKeyType :=
  ⟨by decide, by decide, by decide,
    parseKey_unknown_type (str "unknown/0/5.json") (str "unknown") (by decide) (by decide)
      (by decide)⟩

/-- C10: segment-count validation. For every path whose split on `/` has a
number of segments other than 2 and 3, that is, a path with no `/` (the empty
string included) or with three or more `/`, `ParseKey` fails with the
invalid-key-format error and returns no key. -/
theorem parseKey_segment_count (s : GoString)
    (hlen : (Split s slash).length ≠ 2 ∧ (Split s slash).length ≠ 3) :
    ParseKey s = .error .invalidKey ∧ (Split s slash).length = s.count slash + 1 ∧
      (s.count slash = 0 ∨ 3 ≤ s.count slash) := by
  have h := split_length s slash
  refine ⟨?_, h, ?_⟩
  · simp only [ParseKey, keySegments_none hlen.1 hlen.2]
  · omega

/-- Instance of C10: the empty path is rejected with the format error. -/
theorem parseKey_segment_count_witness :
    ((Split (str "") slash).length ≠ 2 ∧ (Split (str "") slash).length ≠ 3) ∧
    ParseKey (str "") = .error .invalidKey ∧
    (Split (str "") slash).length = (str "").count slash + 1 ∧
    ((str "").count slash = 0 ∨ 3 ≤ (str "").count slash) :=
  ⟨by decide, parseKey_segment_count (str "") (by decide)⟩

/-! ## Further facts used by the later claims -/

theorem tdiv_small {h : Int} (hlo : -9999 ≤ h) (hhi : h ≤ 9999) : Int.tdiv h 10000 = 0 := by
  rw [tdiv_splitWidth]
  split <;> omega

theorem isInt64_tdiv {x : Int} (hx : isInt64 x) : isInt64 (Int.tdiv x 10000) := by
  rw [tdiv_splitWidth]
  unfold isInt64 minInt64 maxInt64 at *
  split <;> omega

theorem keySegments_of_split {l : List GoString} {kt pre name : GoString}
    (h : l = [kt, name] ∨ l = [kt, pre, name]) :
    ∃ p, keySegments l = some (kt, p, name) := by
  rcases h with rfl | rfl
  · exact ⟨[], rfl⟩
  · exact ⟨pre, rfl⟩

theorem isInt64_wrapInt64 (x : Int) : isInt64 (wrapInt64 x) := by
  unfold isInt64 minInt64 maxInt64 wrapInt64
  omega

/-- The value returned by `ParseInt` is an `int64`, also when it fails. -/
theorem parseInt_isInt64 (s : GoString) : isInt64 (ParseInt s).1 := by
  unfold ParseInt
  split
  · decide
  · simp only
    split
    · show isInt64 0
      decide
    · split
      · show isInt64 (((2 ^ 63 : Nat) : Int) - 1)
        decide
      · split
        · show isInt64 (-((2 ^ 63 : Nat) : Int))
          decide
        · simp only
          split <;> exact isInt64_wrapInt64 _

/-- The height read from a stem is an `int64`. -/
theorem stem_isInt64 {stem : GoString} {h : Int}
    (hh : (if stem = str "latest" then ((-1 : Int), (none : Option NumError))
      else ParseInt stem) = (h, none)) : isInt64 h := by
  split at hh
  · simp only [Prod.mk.injEq] at hh
    rw [← hh.1]
    decide
  · have := parseInt_isInt64 stem
    rw [hh] at this
    exact this

theorem digitsValueFrom_cons (n : Nat) (c : UInt8) (cs : GoString) :
    digitsValueFrom n (c :: cs) = digitsValueFrom (n * 10 + (c.toNat - 48)) cs := rfl

theorem le_digitsValueFrom (n : Nat) (ds : GoString) : n ≤ digitsValueFrom n ds := by
  induction ds generalizing n with
  | nil => exact le_refl _
  | cons c cs ih =>
    rw [digitsValueFrom_cons]
    exact le_trans (by omega) (ih _)

theorem digitVal_of_isDigitByte {c : UInt8} (h : isDigitByte c) :
    digitVal c = some (c.toNat - 48) := by
  unfold isDigitByte at h
  unfold digitVal
  rw [if_pos h]

/-- A successful run of the `ParseUint` loop returns the number the digits
denote. -/
theorem parseUintLoop_value {s : GoString} {n m : Nat}
    (h : parseUintLoop s n = (m, none)) : m = digitsValueFrom n s := by
  induction s generalizing n with
  | nil =>
    simp [parseUintLoop] at h
    exact h.symm
  | cons c cs ih =>
    have hc : isDigitByte c := parseUintLoop_digits h c (by simp)
    have hc2 := hc
    unfold isDigitByte at hc2
    rw [digitsValueFrom_cons]
    unfold parseUintLoop at h
    rw [digitVal_of_isDigitByte hc] at h
    simp only at h
    rw [if_neg (by omega)] at h
    split at h
    · simp at h
    · rename_i hcut
      unfold cutoff10 maxUint64 at hcut
      have e1 : n * 10 % 2 ^ 64 = n * 10 := Nat.mod_eq_of_lt (by omega)
      rw [e1] at h
      split at h
      · simp at h
      · rename_i hwrap
        have e2 : (n * 10 + (c.toNat - 48)) % 2 ^ 64 = n * 10 + (c.toNat - 48) := by
          omega
        rw [e2] at h
        exact ih h

/-- The `ParseUint` loop accepts every string of digits whose value fits in a
`uint64`. -/
theorem parseUintLoop_of_digits {s : GoString} {n : Nat}
    (hd : ∀ c ∈ s, isDigitByte c) (hv : digitsValueFrom n s ≤ maxUint64) :
    parseUintLoop s n = (digitsValueFrom n s, none) := by
  induction s generalizing n with
  | nil => rfl
  | cons c cs ih =>
    have hc : isDigitByte c := hd c (by simp)
    have hc2 := hc
    unfold isDigitByte at hc2
    rw [digitsValueFrom_cons] at hv ⊢
    have hle := le_trans (le_digitsValueFrom _ cs) hv
    unfold maxUint64 at hle
    have e1 : n * 10 % 2 ^ 64 = n * 10 := Nat.mod_eq_of_lt (by omega)
    have e2 : (n * 10 + (c.toNat - 48)) % 2 ^ 64 = n * 10 + (c.toNat - 48) :=
      Nat.mod_eq_of_lt (by omega)
    unfold parseUintLoop
    rw [digitVal_of_isDigitByte hc]
    simp only [e1, e2]
    rw [if_neg (by omega), if_neg (by unfold cutoff10 maxUint64; omega),
      if_neg (by unfold maxUint64; omega)]
    exact ih (fun x hx => hd x (by simp [hx])) hv

theorem parseInt_of_parseUint {c : UInt8} {cs : GoString} {un : Nat}
    (hp : ParseUint (unsignedPart (c :: cs)) = (un, none)) :
    ParseInt (c :: cs) =
      if ¬ c = minus ∧ 2 ^ 63 ≤ un then
        (((2 ^ 63 : Nat) : Int) - 1, some ⟨c :: cs, .ErrRange⟩)
      else if c = minus ∧ 2 ^ 63 < un then
        (-((2 ^ 63 : Nat) : Int), some ⟨c :: cs, .ErrRange⟩)
      else (if c = minus then wrapInt64 (-wrapInt64 un) else wrapInt64 un, none) := by
  simp only [unsignedPart] at hp
  simp only [ParseInt, hp]
  simp

/-- Acceptance by `ParseInt` is exactly being a base-10 signed integer in
`int64` range. -/
theorem parseInt_ok_iff (s : GoString) : (ParseInt s).2 = none ↔ isDecimalInt64 s := by
  constructor
  · intro h
    obtain ⟨un, hu⟩ := parseInt_ok_parseUint h
    have hd := parseUint_digits hu
    have hne : unsignedPart s ≠ [] := by
      intro he
      rw [he] at hu
      simp [ParseUint] at hu
    have hv : un = digitsValue (unsignedPart s) := by
      unfold ParseUint at hu
      rw [if_neg hne] at hu
      exact parseUintLoop_value hu
    refine ⟨hne, hd, ?_⟩
    cases s with
    | nil => exact absurd rfl hne
    | cons c cs =>
      rw [parseInt_of_parseUint hu] at h
      rw [← hv]
      simp only [List.head?_cons, Option.some.injEq]
      unfold isInt64 minInt64 maxInt64
      by_cases hc : c = minus
      · simp only [hc, not_true_eq_false, false_and, if_false, true_and] at h ⊢
        split at h
        · simp at h
        · simp only [if_true]
          omega
      · simp only [hc, not_false_eq_true, true_and, false_and, if_false] at h ⊢
        split at h
        · simp at h
        · omega
  · rintro ⟨hne, hd, hr⟩
    cases s with
    | nil => exact absurd rfl hne
    | cons c cs =>
      simp only [List.head?_cons, Option.some.injEq] at hr
      unfold isInt64 minInt64 maxInt64 at hr
      have hle : digitsValue (unsignedPart (c :: cs)) ≤ maxUint64 := by
        unfold maxUint64
        split at hr <;> omega
      have hu : ParseUint (unsignedPart (c :: cs)) =
          (digitsValue (unsignedPart (c :: cs)), none) := by
        unfold ParseUint
        rw [if_neg hne]
        exact parseUintLoop_of_digits hd hle
      rw [parseInt_of_parseUint hu]
      by_cases hc : c = minus
      · subst hc
        simp only [if_true] at hr
        rw [if_neg (by simp), if_neg (by rintro ⟨-, h2⟩; omega)]
      · simp only [hc, if_false] at hr
        rw [if_neg (by rintro ⟨-, h2⟩; omega), if_neg (by simp [hc])]

theorem digitByte_of_isDigitByte {c : UInt8} (h : isDigitByte c) :
    digitByte (c.toNat - 48) = c := by
  rcases c with ⟨⟨n, hn⟩⟩
  unfold isDigitByte at h
  simp only [UInt8.toNat] at h
  have h1 : 48 ≤ n := h.1
  have h2 : n ≤ 57 := h.2
  interval_cases n <;> rfl

theorem digitsValueFrom_append (n : Nat) (a b : GoString) :
    digitsValueFrom n (a ++ b) = digitsValueFrom (digitsValueFrom n a) b := by
  unfold digitsValueFrom
  rw [List.foldl_append]

theorem digitsValue_decimal {u : Nat} (hu : u ≤ maxUint64) : digitsValue (decimal u) = u := by
  have hp := parseUint_decimal hu
  unfold ParseUint at hp
  rw [if_neg (decimal_ne_nil u)] at hp
  exact (parseUintLoop_value hp).symm

theorem formatDigits_step {fuel u : Nat} (h10 : 10 ≤ u) :
    formatDigits (fuel + 1) u [] = formatDigits fuel (u / 10) [] ++ [digitByte (u % 10)] := by
  rw [formatDigits, if_neg (by omega), formatDigits_acc]

theorem digitByte_ne_zero {d : Nat} (hd : d < 10) (h1 : 1 ≤ d) : digitByte d ≠ 48 := by
  intro he
  have h := congrArg UInt8.toNat he
  rw [digitByte_toNat hd, show (48 : UInt8).toNat = 48 from rfl] at h
  omega

theorem formatDigits_head (fuel u : Nat) (h1 : 1 ≤ u) (hf : u < 10 ^ (fuel + 1)) :
    (formatDigits (fuel + 1) u []).head? ≠ some 48 := by
  induction fuel generalizing u with
  | zero =>
    have h10 : u < 10 := by simpa using hf
    rw [formatDigits, if_pos h10]
    simp only [List.head?_cons, ne_eq, Option.some.injEq]
    exact digitByte_ne_zero h10 h1
  | succ fuel ih =>
    by_cases h10 : u < 10
    · rw [formatDigits, if_pos h10]
      simp only [List.head?_cons, ne_eq, Option.some.injEq]
      exact digitByte_ne_zero h10 h1
    · rw [formatDigits_step (by omega)]
      have hq : u / 10 < 10 ^ (fuel + 1) := by
        rw [Nat.div_lt_iff_lt_mul (by decide)]
        rw [pow_succ] at hf
        exact hf
      have hne := formatDigits_ne_nil fuel (u / 10)
      rw [List.head?_append_of_ne_nil _ hne]
      exact ih (u / 10) (by omega) hq

theorem decimal_head {u : Nat} (hu : u ≤ maxUint64)
    (h : (decimal u).head? = some 48) : decimal u = [48] := by
  by_cases h0 : u = 0
  · subst h0; decide
  · exact absurd h (formatDigits_head 64 u (by omega) (by unfold maxUint64 at hu; omega))

/-- The rendering of `FormatInt` is the canonical decimal rendering. -/
theorem formatInt_isDecimalOf {h : Int} (hi : isInt64 h) : isDecimalOf h (FormatInt h) := by
  have hr := hi
  unfold isInt64 minInt64 maxInt64 at hr
  unfold isDecimalOf
  by_cases h0 : 0 ≤ h
  · have hn : ¬ h < 0 := by omega
    have hu : h.toNat ≤ maxUint64 := by unfold maxUint64; omega
    rw [formatInt_nonneg h0 hi]
    simp only [hn, if_false, false_implies, true_and]
    refine ⟨decimal_ne_nil _, decimal_digits _, decimal_head hu, ?_⟩
    rw [digitsValue_decimal hu]
    omega
  · have hn : h < 0 := by omega
    have hu : (-h).toNat ≤ maxUint64 := by unfold maxUint64; omega
    rw [formatInt_neg hn hi]
    simp only [hn, if_true, List.head?_cons, List.tail_cons, true_implies, true_and]
    refine ⟨decimal_ne_nil _, decimal_digits _, decimal_head hu, ?_⟩
    rw [digitsValue_decimal hu]
    omega

theorem digitsValue_snoc (init : GoString) (c : UInt8) :
    digitsValue (init ++ [c]) = digitsValue init * 10 + (c.toNat - 48) := by
  unfold digitsValue
  rw [digitsValueFrom_append]
  rfl

theorem digitsValue_pos {ds : GoString} (hne : ds ≠ []) (hd : ∀ c ∈ ds, isDigitByte c)
    (hz : ds.head? ≠ some 48) : 1 ≤ digitsValue ds := by
  cases ds with
  | nil => exact absurd rfl hne
  | cons a rest =>
    have ha : isDigitByte a := hd a (by simp)
    have hne48 : a ≠ 48 := by
      intro he
      exact hz (by simp [he])
    have hpos : 1 ≤ a.toNat - 48 := by
      by_contra hcon
      have h0 : a.toNat - 48 = 0 := by omega
      have := digitByte_of_isDigitByte ha
      rw [h0] at this
      exact hne48 this.symm
    unfold digitsValue
    rw [digitsValueFrom_cons]
    exact le_trans (by omega) (le_digitsValueFrom _ rest)

/-- A string of digits without leading zero is what the digit loop of
`formatBits` writes for the number it denotes. -/
theorem formatDigits_digitsValue (ds : GoString) :
    ∀ fuel : Nat, ds ≠ [] → (∀ c ∈ ds, isDigitByte c) →
      (ds.head? = some 48 → ds = [48]) → digitsValue ds < 10 ^ (fuel + 1) →
      formatDigits (fuel + 1) (digitsValue ds) [] = ds := by
  induction ds using List.reverseRecOn with
  | nil => intro _ hne; exact absurd rfl hne
  | append_singleton init c ih =>
    intro fuel _ hd hz hf
    have hc : isDigitByte c := hd c (by simp)
    have hc2 := hc
    unfold isDigitByte at hc2
    rw [digitsValue_snoc] at hf ⊢
    by_cases hi : init = []
    · subst hi
      have hv : digitsValue [] = 0 := rfl
      rw [hv, Nat.zero_mul, Nat.zero_add, formatDigits, if_pos (by omega),
        digitByte_of_isDigitByte hc]
      rfl
    · have hhead : init.head? ≠ some 48 := by
        intro he
        have h48 := hz (by rw [List.head?_append_of_ne_nil _ hi]; exact he)
        have hlen := congrArg List.length h48
        cases init with
        | nil => exact hi rfl
        | cons a rest => simp at hlen
      have hdi : ∀ x ∈ init, isDigitByte x := fun x hx => hd x (by simp [hx])
      have hpos := digitsValue_pos hi hdi hhead
      rw [formatDigits_step (by omega)]
      have hq : (digitsValue init * 10 + (c.toNat - 48)) / 10 = digitsValue init := by omega
      have hm : (digitsValue init * 10 + (c.toNat - 48)) % 10 = c.toNat - 48 := by omega
      rw [hq, hm, digitByte_of_isDigitByte hc]
      cases fuel with
      | zero => simp at hf; omega
      | succ f =>
        rw [ih f hi hdi (fun he => absurd he hhead)]
        rw [pow_succ] at hf
        omega

/-- The canonical decimal rendering of an `int64` is unique: it is the string
`FormatInt` returns. -/
theorem isDecimalOf_unique {h : Int} (hi : isInt64 h) {d : GoString}
    (hd : isDecimalOf h d) : d = FormatInt h := by
  have hr := hi
  unfold isInt64 minInt64 maxInt64 at hr
  unfold isDecimalOf at hd
  by_cases h0 : 0 ≤ h
  · have hn : ¬ h < 0 := by omega
    simp only [hn, if_false] at hd
    obtain ⟨-, hne, hdig, hz, hv⟩ := hd
    have hval : digitsValue d = h.toNat := by omega
    rw [formatInt_nonneg h0 hi, ← hval]
    exact (formatDigits_digitsValue d 64 hne hdig hz (by omega)).symm
  · have hn : h < 0 := by omega
    simp only [hn, if_true, true_implies] at hd
    obtain ⟨hsign, hne, hdig, hz, hv⟩ := hd
    have hval : digitsValue d.tail = (-h).toNat := by omega
    rw [formatInt_neg hn hi, ← hval]
    have hdec : decimal (digitsValue d.tail) = d.tail :=
      formatDigits_digitsValue d.tail 64 hne hdig hz (by omega)
    rw [hdec]
    cases d with
    | nil => simp at hsign
    | cons a rest =>
      simp only [List.head?_cons, Option.some.injEq] at hsign
      rw [hsign]
      rfl

/-! ## Claims on the builder, the order of checks and canonical paths -/

/-- C11: output format of `KeyBuilder`. For a recognized type `t` and an
`int64` height `h`, let `dh` be the canonical decimal rendering of `h` and
`ds` that of `h / 10000` truncated toward zero (sign `-` exactly for a negative
number, then the digits of the absolute value without leading zero; each is
the only string with these properties). Then `KeyBuilder(t, h, false)` is
`<t>/<dh><sfx>` and `KeyBuilder(t, h, true)` is `<t>/<ds>/<dh><sfx>`, where
`<sfx>` is `.car` for `Snapshot` and `Compacted` and `.json` for `Implicit` and
`Messages`. -/
theorem keyBuilder_format (t : KeyType) (h : Int)
    (ht : t = Snapshot ∨ t = Compacted ∨ t = Implicit ∨ t = Messages) (hi : isInt64 h) :
    ∃ dh ds : GoString,
      isDecimalOf h dh ∧ (∀ d, isDecimalOf h d → d = dh) ∧
      isDecimalOf (Int.tdiv h 10000) ds ∧ (∀ d, isDecimalOf (Int.tdiv h 10000) d → d = ds) ∧
      (t = Snapshot ∨ t = Compacted →
        KeyBuilder t h false = t ++ str "/" ++ dh ++ str ".car" ∧
        KeyBuilder t h true = t ++ str "/" ++ ds ++ str "/" ++ dh ++ str ".car") ∧
      (t = Implicit ∨ t = Messages →
        KeyBuilder t h false = t ++ str "/" ++ dh ++ str ".json" ∧
        KeyBuilder t h true = t ++ str "/" ++ ds ++ str "/" ++ dh ++ str ".json") := by
  have hq : isInt64 (Int.tdiv h 10000) := isInt64_tdiv hi
  refine ⟨FormatInt h, FormatInt (Int.tdiv h 10000), formatInt_isDecimalOf hi,
    fun d hd => isDecimalOf_unique hi hd, formatInt_isDecimalOf hq,
    fun d hd => isDecimalOf_unique hq hd, ?_, ?_⟩
  · intro hc
    rcases hc with rfl | rfl <;>
      simp [KeyBuilder, shardOf_eq hi, keyTypes_distinct]
  · intro hj
    rcases hj with rfl | rfl <;>
      simp [KeyBuilder, shardOf_eq hi, keyTypes_distinct]

/-- Instances of C11 in literals: `KeyBuilder(Messages, 7, true)` is
`messages/0/7.json` and `KeyBuilder(Messages, 7, false)` is `messages/7.json`;
for the negative height -10001 the sharded `Compacted` path has the shard
segment `-1` and the name `-10001.car`. The renderings of -10001, of its
quotient and of the smallest `int64` are also checked by evaluation against
the properties of a canonical decimal rendering. -/
theorem keyBuilder_format_witness :
    (Messages = Snapshot ∨ Messages = Compacted ∨ Messages = Implicit ∨ Messages = Messages) ∧
    isInt64 7 ∧
    (Compacted = Snapshot ∨ Compacted = Compacted ∨ Compacted = Implicit ∨
      Compacted = Messages) ∧
    isInt64 (-10001) ∧
    isDecimalOf (-10001) (FormatInt (-10001)) ∧
    isDecimalOf (Int.tdiv (-10001) 10000) (FormatInt (shardOf (-10001))) ∧
    isDecimalOf minInt64 (FormatInt minInt64) ∧
    KeyBuilder Snapshot minInt64 false = str "snapshot/-9223372036854775808.car" ∧
    KeyBuilder Messages 7 true = str "messages/0/7.json" ∧
    KeyBuilder Messages 7 false = str "messages/7.json" ∧
    KeyBuilder Compacted (-10001) true = str "compacted/-1/-10001.car" ∧
    KeyBuilder Compacted (-10001) false = str "compacted/-10001.car" := by
  obtain ⟨dh, ds, -, u1, -, u2, -, hj⟩ :=
    keyBuilder_format Messages 7 (by decide) (by decide)
  obtain ⟨eh, es, -, v1, -, v2, hc, -⟩ :=
    keyBuilder_format Compacted (-10001) (by decide) (by decide)
  have e1 : str "7" = dh := u1 (str "7") (by decide)
  have e2 : str "0" = ds := u2 (str "0") (by decide)
  have e3 : str "-10001" = eh := v1 (str "-10001") (by decide)
  have e4 : str "-1" = es := v2 (str "-1") (by decide)
  subst e1 e2 e3 e4
  have hm := hj (by decide)
  have hk := hc (by decide)
  exact ⟨by decide, by decide, by decide, by decide, by decide, by decide, by decide,
    by decide, hm.2.trans (by decide), hm.1.trans (by decide), hk.2.trans (by decide),
    hk.1.trans (by decide)⟩

/-- C12: sentinel asymmetry. For a recognized type `t`, the name written by
`KeyBuilder` has the decimal rendering of the height as its stem, which is
never the word `latest`; in particular the canonical path of the key of height
-1 has the name `-1.<suffix of t>`. Consequently, for every path `s` whose name
has the stem `latest` and on which `ParseKey` succeeds with a key `k` of type
`t`, the height of `k` is -1 and `k.Default()` differs from `s`. -/
theorem latest_not_reencoded (t : KeyType)
    (ht : t = Snapshot ∨ t = Compacted ∨ t = Implicit ∨ t = Messages) :
    (∀ (h : Int) (b : Bool), FormatInt h ≠ str "latest" ∧
      Split (FormatInt h ++ str "." ++ expectedSuffix t) dot = [FormatInt h, expectedSuffix t] ∧
      ∃ pre, keySegments (Split (KeyBuilder t h b) slash) =
        some (t, pre, FormatInt h ++ str "." ++ expectedSuffix t)) ∧
    (∃ pre, keySegments (Split (NewKey (-1) t).Default slash) =
        some (t, pre, str "-1" ++ str "." ++ expectedSuffix t) ∧
      Split (str "-1" ++ str "." ++ expectedSuffix t) dot = [str "-1", expectedSuffix t]) ∧
    (∀ (s : GoString) (k : Key) (pre name ext : GoString),
      ParseKey s = .ok k → k.Type = t →
      (Split s slash = [t, name] ∨ Split s slash = [t, pre, name]) →
      Split name dot = [str "latest", ext] →
      k.Height = -1 ∧ k.Default ≠ s) := by
  have hk : t ∈ KeyTypeMap := mem_keyTypeMap.2 ht
  have hf : FormatInt (-1) = str "-1" := by decide
  have hnm : slash ∉ str "-1" ++ str "." ++ expectedSuffix t := by
    rw [← hf]; exact name_no_slash (-1) t
  have hdef : ∃ pre, keySegments (Split (NewKey (-1) t).Default slash) =
      some (t, pre, str "-1" ++ str "." ++ expectedSuffix t) := by
    show ∃ pre, keySegments (Split (if t = Snapshot then KeyBuilder t (-1) false
      else KeyBuilder t (-1) true) slash) = _
    by_cases hsn : t = Snapshot
    · rw [if_pos hsn, keyBuilder_flat hk, hf]
      exact ⟨[], keySegments_two (keyType_no_slash hk) hnm⟩
    · rw [if_neg hsn, keyBuilder_sharded hk, hf]
      exact ⟨_, keySegments_three (keyType_no_slash hk) (formatInt_no_slash _) hnm⟩
  have hsplit : Split (str "-1" ++ str "." ++ expectedSuffix t) dot =
      [str "-1", expectedSuffix t] :=
    split_name (by decide) (expectedSuffix_clean t).2
  refine ⟨?_, ?_, ?_⟩
  · intro h b
    refine ⟨formatInt_ne_latest h,
      split_name (formatInt_no_dot h) (expectedSuffix_clean t).2, ?_⟩
    cases b
    · rw [keyBuilder_flat hk]
      exact ⟨[], keySegments_two (keyType_no_slash hk) (name_no_slash h t)⟩
    · rw [keyBuilder_sharded hk]
      exact ⟨_, keySegments_three (keyType_no_slash hk) (formatInt_no_slash _)
        (name_no_slash h t)⟩
  · obtain ⟨pre, hpre⟩ := hdef
    exact ⟨pre, hpre, hsplit⟩
  · intro s k pre name ext hok hty hseg hname
    obtain ⟨kt, pre2, name2, stem, ext2, h, hseg2, -, hname2, hh, -, -, -, hkey⟩ :=
      parseKey_ok hok
    obtain ⟨p, hp⟩ := keySegments_of_split hseg
    rw [hp] at hseg2
    simp only [Option.some.injEq, Prod.mk.injEq] at hseg2
    obtain ⟨rfl, rfl, rfl⟩ := hseg2
    rw [hname] at hname2
    simp only [List.cons.injEq, and_true] at hname2
    obtain ⟨rfl, rfl⟩ := hname2
    simp only [if_true, Prod.mk.injEq, and_true] at hh
    subst hh
    subst hkey
    refine ⟨rfl, ?_⟩
    intro heq
    obtain ⟨pre3, hpre3⟩ := hdef
    rw [heq, hp] at hpre3
    simp only [Option.some.injEq, Prod.mk.injEq] at hpre3
    have hn := hpre3.2.2
    rw [hn, hsplit] at hname
    simp only [List.cons.injEq, and_true] at hname
    exact absurd hname.1 (by decide)

/-- Instance of C12 at `messages`: the path `messages/0/latest.json` parses to
the key of height -1, whose canonical path has the name `-1.json` instead. -/
theorem latest_not_reencoded_witness :
    (Messages = Snapshot ∨ Messages = Compacted ∨ Messages = Implicit ∨ Messages = Messages) ∧
    ParseKey (str "messages/0/latest.json") = .ok (NewKey (-1) Messages) ∧
    (NewKey (-1) Messages).Default = str "messages/0/-1.json" ∧
    (NewKey (-1) Messages).Height = -1 ∧
    (NewKey (-1) Messages).Default ≠ str "messages/0/latest.json" :=
  ⟨by decide, by decide, by decide,
    (latest_not_reencoded Messages (by decide)).2.2 (str "messages/0/latest.json")
      (NewKey (-1) Messages) (str "0") (str "latest.json") (str "json")
      (by decide) (by decide) (by decide) (by decide)⟩

/-- C13: shard arithmetic truncates toward zero. For a recognized type `t` and
a height `h` with `-9999 ≤ h ≤ 9999`, the shard segment written by
`KeyBuilder(t, h, true)` is `0`, and for a sharded type `ParseKey` accepts the
shard segment `0` with such a height; for `h = -10000` the shard segment is
`-1`; and for every `int64` the quotient by 10000 is again an `int64`, so the
division in `KeyBuilder` and `ParseKey` never wraps around. -/
theorem shard_truncates (t : KeyType) (h : Int)
    (ht : t = Snapshot ∨ t = Compacted ∨ t = Implicit ∨ t = Messages)
    (hlo : -9999 ≤ h) (hhi : h ≤ 9999) :
    KeyBuilder t h true =
      t ++ str "/" ++ str "0" ++ str "/" ++ (FormatInt h ++ str "." ++ expectedSuffix t) ∧
    (isSharded t →
      ParseKey (t ++ str "/" ++ str "0" ++ str "/" ++
        (FormatInt h ++ str "." ++ expectedSuffix t)) = .ok (NewKey h t)) ∧
    KeyBuilder t (-10000) true =
      t ++ str "/" ++ str "-1" ++ str "/" ++ (str "-10000" ++ str "." ++ expectedSuffix t) ∧
    (∀ x : Int, isInt64 x →
      isInt64 (Int.tdiv x splitWidth) ∧ shardOf x = Int.tdiv x splitWidth) := by
  have hk : t ∈ KeyTypeMap := mem_keyTypeMap.2 ht
  have hi : isInt64 h := by
    unfold isInt64 minInt64 maxInt64
    omega
  have h0 : FormatInt (Int.tdiv h 10000) = str "0" := by
    rw [tdiv_small hlo hhi]; decide
  refine ⟨?_, ?_, ?_, ?_⟩
  · rw [keyBuilder_sharded hk, shardOf_eq hi, h0]
  · intro hs
    rw [parseKey_sharded_path hs hi (by decide), h0]
    simp
  · rw [keyBuilder_sharded hk]
    have h1 : FormatInt (shardOf (-10000)) = str "-1" := by decide
    have h2 : FormatInt (-10000) = str "-10000" := by decide
    rw [h1, h2]
  · intro x hx
    exact ⟨isInt64_tdiv hx, shardOf_eq hx⟩

/-- Instance of C13 at `messages` and height -9999, the smallest height of
shard `0`. -/
theorem shard_truncates_witness :
    (Messages = Snapshot ∨ Messages = Compacted ∨ Messages = Implicit ∨ Messages = Messages) ∧
    (-9999 : Int) ≤ -9999 ∧ (-9999 : Int) ≤ 9999 ∧ isSharded Messages ∧
    KeyBuilder Messages (-9999) true = str "messages/0/-9999.json" ∧
    ParseKey (str "messages/0/-9999.json") = .ok (NewKey (-9999) Messages) ∧
    KeyBuilder Messages (-10000) true = str "messages/-1/-10000.json" ∧
    shardOf minInt64 = Int.tdiv minInt64 splitWidth :=
  have w := shard_truncates Messages (-9999) (by decide) (by decide) (by decide)
  ⟨by decide, by decide, by decide, by decide, w.1.trans (by decide),
    (show str "messages/0/-9999.json" = Messages ++ str "/" ++ str "0" ++ str "/" ++
      (FormatInt (-9999) ++ str "." ++ expectedSuffix Messages) by decide) ▸ w.2.1 (by decide),
    w.2.2.1.trans (by decide), (w.2.2.2 minInt64 (by decide)).2⟩

/-- C14: a bad height is reported before suffix and shard problems. For every
path that splits on `/` into 2 or 3 segments with a recognized type and whose
name splits on `.` into exactly two parts, if the stem is neither `latest` nor
a base-10 signed integer in `int64` range, then `ParseKey` fails with the
error returned by `ParseInt` on the stem, whatever the suffix and the shard
segment are. -/
theorem parseKey_bad_height (s kt pre name stem ext : GoString)
    (hseg : Split s slash = [kt, name] ∨ Split s slash = [kt, pre, name])
    (hk : kt = Snapshot ∨ kt = Compacted ∨ kt = Implicit ∨ kt = Messages)
    (hname : Split name dot = [stem, ext])
    (hl : stem ≠ str "latest") (hbad : ¬ isDecimalInt64 stem) :
    ∃ e, (ParseInt stem).2 = some e ∧ ParseKey s = .error (.invalidHeight e) := by
  obtain ⟨p, hp⟩ := keySegments_of_split hseg
  have hmem : kt ∈ KeyTypeMap := mem_keyTypeMap.2 hk
  have herr : (ParseInt stem).2 ≠ none := fun h => hbad ((parseInt_ok_iff stem).1 h)
  obtain ⟨e, he⟩ := Option.ne_none_iff_exists'.1 herr
  refine ⟨e, he, ?_⟩
  have hpair : ParseInt stem = ((ParseInt stem).1, some e) := by rw [← he]
  simp only [ParseKey, hp, hmem, not_true_eq_false, if_false, hname, if_neg hl]
  rw [hpair]

/-- Instance of C14: `messages/7/abc.car` has a wrong shard segment and a wrong
suffix as well, and `snapshot/9223372036854775808.car` a stem just above the
largest `int64`; both are rejected with the error of `ParseInt`. -/
theorem parseKey_bad_height_witness :
    (Split (str "messages/7/abc.car") slash = [Messages, str "abc.car"] ∨
      Split (str "messages/7/abc.car") slash = [Messages, str "7", str "abc.car"]) ∧
    Split (str "abc.car") dot = [str "abc", str "car"] ∧
    str "abc" ≠ str "latest" ∧ ¬ isDecimalInt64 (str "abc") ∧
    ¬ isDecimalInt64 (str "9223372036854775808") ∧
    ParseKey (str "messages/7/abc.car") =
      .error (.invalidHeight ⟨str "abc", .ErrSyntax⟩) ∧
    ParseKey (str "snapshot/9223372036854775808.car") =
      .error (.invalidHeight ⟨str "9223372036854775808", .ErrRange⟩) ∧
    (∃ e, (ParseInt (str "abc")).2 = some e ∧
      ParseKey (str "messages/7/abc.car") = .error (.invalidHeight e)) ∧
    (∃ e, (ParseInt (str "9223372036854775808")).2 = some e ∧
      ParseKey (str "snapshot/9223372036854775808.car") = .error (.invalidHeight e)) :=
  ⟨by decide, by decide, by decide, by decide, by decide, by decide, by decide,
    parseKey_bad_height (str "messages/7/abc.car") Messages (str "7") (str "abc.car")
      (str "abc") (str "car") (by decide) (by decide) (by decide) (by decide) (by decide),
    parseKey_bad_height (str "snapshot/9223372036854775808.car") Snapshot []
      (str "9223372036854775808.car") (str "9223372036854775808") (str "car")
      (by decide) (by decide) (by decide) (by decide) (by decide)⟩

/-- C15: name shape validation. For every path that splits on `/` into 2 or 3
segments with a recognized type, and whose name (the last segment) does not
split on `.` into exactly 2 parts, that is, a name with no `.` or with two or
more, `ParseKey` fails with the error of message `invalid key suffix`, whatever
the stem, the suffix and the shard segment are. -/
theorem parseKey_name_shape (s kt pre name : GoString)
    (hseg : Split s slash = [kt, name] ∨ Split s slash = [kt, pre, name])
    (hk : kt = Snapshot ∨ kt = Compacted ∨ kt = Implicit ∨ kt = Messages)
    (hshape : (Split name dot).length ≠ 2) :
    ParseKey s = .error .invalidKeyName ∧ (name.count dot = 0 ∨ 2 ≤ name.count dot) := by
  obtain ⟨p, hp⟩ := keySegments_of_split hseg
  have hmem : kt ∈ KeyTypeMap := mem_keyTypeMap.2 hk
  constructor
  · simp only [ParseKey, hp, hmem, not_true_eq_false, if_false]
    split
    · rename_i stem ext hsp
      rw [hsp] at hshape
      simp at hshape
    · rfl
  · have h := split_length name dot
    omega

/-- Instance of C15: `snapshot/5` (no dot) and `snapshot/5.tar.car` (two dots)
are rejected with the error of message `invalid key suffix`. -/
theorem parseKey_name_shape_witness :
    (Split (str "snapshot/5") slash = [Snapshot, str "5"] ∨
      Split (str "snapshot/5") slash = [Snapshot, [], str "5"]) ∧
    (Split (str "5") dot).length ≠ 2 ∧
    (Split (str "snapshot/5.tar.car") slash = [Snapshot, str "5.tar.car"] ∨
      Split (str "snapshot/5.tar.car") slash = [Snapshot, [], str "5.tar.car"]) ∧
    (Split (str "5.tar.car") dot).length ≠ 2 ∧
    ParseKey (str "snapshot/5") = .error .invalidKeyName ∧
    ParseKey (str "snapshot/5.tar.car") = .error .invalidKeyName :=
  ⟨by decide, by decide, by decide, by decide,
    (parseKey_name_shape (str "snapshot/5") Snapshot [] (str "5") (by decide) (by decide)
      (by decide)).1,
    (parseKey_name_shape (str "snapshot/5.tar.car") Snapshot [] (str "5.tar.car") (by decide)
      (by decide) (by decide)).1⟩

/-- C16: the round trip holds for every `int64` height, negative ones
included. For each of the four types and every `int64` `h`, `ParseKey` of
`NewKey(h, t).Default()` succeeds and returns a key with `Height()` equal to
`h` and `Type()` equal to `t`. -/
theorem parseKey_default_roundtrip_int64 (t : KeyType) (h : Int)
    (ht : t = Snapshot ∨ t = Compacted ∨ t = Implicit ∨ t = Messages) (hi : isInt64 h) :
    ∃ k, ParseKey (NewKey h t).Default = .ok k ∧ k.Height = h ∧ k.Type = t :=
  ⟨NewKey h t, parseKey_default_eq (mem_keyTypeMap.2 ht) hi, rfl, rfl⟩

/-- Instance of C16 at `messages` and the smallest `int64`, together with the
canonical paths of the heights -1, -10000 and the largest `int64`. -/
theorem parseKey_default_roundtrip_int64_witness :
    (Messages = Snapshot ∨ Messages = Compacted ∨ Messages = Implicit ∨ Messages = Messages) ∧
    isInt64 minInt64 ∧
    (NewKey minInt64 Messages).Default =
      str "messages/-922337203685477/-9223372036854775808.json" ∧
    ParseKey (str "compacted/0/-1.car") = .ok (NewKey (-1) Compacted) ∧
    ParseKey (str "implicit/-1/-10000.json") = .ok (NewKey (-10000) Implicit) ∧
    ParseKey (str "snapshot/9223372036854775807.car") = .ok (NewKey maxInt64 Snapshot) ∧
    ∃ k, ParseKey (NewKey minInt64 Messages).Default = .ok k ∧ k.Height = minInt64 ∧
      k.Type = Messages :=
  ⟨by decide, by decide, by decide, by decide, by decide, by decide,
    parseKey_default_roundtrip_int64 Messages minInt64 (by decide) (by decide)⟩

/-- C17: only the canonical sharding choice yields a parseable path. For a
recognized type `t`, an `int64` height `h` and a boolean `b`, `ParseKey` of
`NewKey(h, t).Value(b)` succeeds exactly when `b` is the canonical choice of
the type (`false` for `Snapshot`, `true` for the other three), and then it
returns the key; otherwise it fails with the invalid-key-prefix error. -/
theorem parseKey_value_canonical (t : KeyType) (h : Int) (b : Bool)
    (ht : t = Snapshot ∨ t = Compacted ∨ t = Implicit ∨ t = Messages) (hi : isInt64 h) :
    ((∃ k, ParseKey ((NewKey h t).Value b) = .ok k) ↔ b = decide (t ≠ Snapshot)) ∧
    (b = decide (t ≠ Snapshot) → ParseKey ((NewKey h t).Value b) = .ok (NewKey h t)) ∧
    (b ≠ decide (t ≠ Snapshot) →
      ∃ given expect, ParseKey ((NewKey h t).Value b) =
        .error (.invalidKeyPrefix given expect)) := by
  have hk : t ∈ KeyTypeMap := mem_keyTypeMap.2 ht
  have hname := split_name (formatInt_no_dot h) (expectedSuffix_clean t).2
  have hgood : b = decide (t ≠ Snapshot) →
      ParseKey ((NewKey h t).Value b) = .ok (NewKey h t) := by
    intro hb
    have hd : (NewKey h t).Value b = (NewKey h t).Default := by
      by_cases hsn : t = Snapshot <;> simp [hb, hsn, Key.Value, Key.Default, NewKey]
    rw [hd]
    exact parseKey_default_eq hk hi
  have hbad : b ≠ decide (t ≠ Snapshot) →
      ∃ given expect, ParseKey ((NewKey h t).Value b) =
        .error (.invalidKeyPrefix given expect) := by
    intro hb
    by_cases hsn : t = Snapshot
    · have hbt : b = true := by
        cases b
        · simp [hsn] at hb
        · rfl
      subst hbt
      have hseg := keySegments_three (keyType_no_slash hk)
        (formatInt_no_slash (shardOf h)) (name_no_slash h t)
      refine ⟨FormatInt (shardOf h), [], ?_⟩
      show ParseKey (KeyBuilder t h true) = _
      rw [keyBuilder_sharded hk, parseKey_of_segments hseg hk hname (formatInt_height hi)]
      simp [hsn, formatInt_ne_nil]
    · have hbf : b = false := by
        cases b
        · rfl
        · simp [hsn] at hb
      subst hbf
      have hseg := keySegments_two (keyType_no_slash hk) (name_no_slash h t)
      refine ⟨[], FormatInt (shardOf h), ?_⟩
      show ParseKey (KeyBuilder t h false) = _
      rw [keyBuilder_flat hk, parseKey_of_segments hseg hk hname (formatInt_height hi)]
      simp [hsn, (formatInt_ne_nil (shardOf h)).symm]
  refine ⟨⟨?_, fun hb => ⟨_, hgood hb⟩⟩, hgood, hbad⟩
  rintro ⟨k, hk2⟩
  by_contra hb
  obtain ⟨g, e, he⟩ := hbad hb
  rw [he] at hk2
  exact absurd hk2 (by simp)

/-- Instance of C17 at `compacted`, height 50123: the sharded path parses, the
path without shard segment is rejected with the prefix error. -/
theorem parseKey_value_canonical_witness :
    (Compacted = Snapshot ∨ Compacted = Compacted ∨ Compacted = Implicit ∨
      Compacted = Messages) ∧
    isInt64 50123 ∧
    (NewKey 50123 Compacted).Value true = str "compacted/5/50123.car" ∧
    (NewKey 50123 Compacted).Value false = str "compacted/50123.car" ∧
    ParseKey ((NewKey 50123 Compacted).Value true) = .ok (NewKey 50123 Compacted) ∧
    ∃ given expect, ParseKey ((NewKey 50123 Compacted).Value false) =
      .error (.invalidKeyPrefix given expect) :=
  ⟨by decide, by decide, by decide, by decide,
    (parseKey_value_canonical Compacted 50123 true (by decide) (by decide)).2.1 (by decide),
    (parseKey_value_canonical Compacted 50123 false (by decide) (by decide)).2.2 (by decide)⟩

/-- C18: parser soundness and canonicalisation. If `ParseKey(s)` succeeds with
key `k`, then `k.Type()` is one of the four recognized types, `k.Height()` is an
`int64`, and `ParseKey(k.Default())` succeeds and returns `k` again; hence
re-encoding the key parsed from `k.Default()` gives `k.Default()` back, that is,
the normalisation of accepted paths is idempotent. -/
theorem parseKey_canonical (s : GoString) (k : Key) (hok : ParseKey s = .ok k) :
    (k.Type = Snapshot ∨ k.Type = Compacted ∨ k.Type = Implicit ∨ k.Type = Messages) ∧
    isInt64 k.Height ∧
    ParseKey k.Default = .ok k ∧
    (∀ k2, ParseKey k.Default = .ok k2 → k2.Default = k.Default) := by
  obtain ⟨kt, pre, name, stem, ext, h, -, hk, -, hh, -, -, -, hkey⟩ := parseKey_ok hok
  subst hkey
  have hrt := parseKey_default_eq hk (stem_isInt64 hh)
  refine ⟨mem_keyTypeMap.1 hk, stem_isInt64 hh, hrt, ?_⟩
  intro k2 hk2
  rw [hrt] at hk2
  simp only [Except.ok.injEq] at hk2
  rw [← hk2]

/-- Instance of C18 at the accepted but non-canonical path
`compacted/5/+050123.car`, which normalises to `compacted/5/50123.car`. -/
theorem parseKey_canonical_witness :
    ParseKey (str "compacted/5/+050123.car") = .ok (NewKey 50123 Compacted) ∧
    (NewKey 50123 Compacted).Default = str "compacted/5/50123.car" ∧
    ((NewKey 50123 Compacted).Type = Snapshot ∨ (NewKey 50123 Compacted).Type = Compacted ∨
      (NewKey 50123 Compacted).Type = Implicit ∨ (NewKey 50123 Compacted).Type = Messages) ∧
    isInt64 (NewKey 50123 Compacted).Height ∧
    ParseKey (NewKey 50123 Compacted).Default = .ok (NewKey 50123 Compacted) ∧
    (∀ k2, ParseKey (NewKey 50123 Compacted).Default = .ok k2 →
      k2.Default = (NewKey 50123 Compacted).Default) :=
  ⟨by decide, by decide,
    parseKey_canonical (str "compacted/5/+050123.car") (NewKey 50123 Compacted) (by decide)⟩

/-- C19: `ParseKey` is not injective, even without the sentinel. The distinct
paths `snapshot/5.car` and `snapshot//5.car` both parse to the `Snapshot` key of
height 5, and so do `snapshot/+5.car` and `snapshot/005.car`; none of them
contains the word `latest`, and only the first is the `Default()` encoding of
that key. -/
theorem parseKey_not_injective :
    ParseKey (str "snapshot/5.car") = .ok (NewKey 5 Snapshot) ∧
    ParseKey (str "snapshot//5.car") = .ok (NewKey 5 Snapshot) ∧
    ParseKey (str "snapshot/+5.car") = .ok (NewKey 5 Snapshot) ∧
    ParseKey (str "snapshot/005.car") = .ok (NewKey 5 Snapshot) ∧
    str "snapshot/5.car" ≠ str "snapshot//5.car" ∧
    str "snapshot/5.car" ≠ str "snapshot/+5.car" ∧
    str "snapshot/5.car" ≠ str "snapshot/005.car" ∧
    ¬ (str "latest" <:+: str "snapshot/5.car") ∧
    ¬ (str "latest" <:+: str "snapshot//5.car") ∧
    ¬ (str "latest" <:+: str "snapshot/+5.car") ∧
    ¬ (str "latest" <:+: str "snapshot/005.car") ∧
    (NewKey 5 Snapshot).Default = str "snapshot/5.car" ∧
    (NewKey 5 Snapshot).Default ≠ str "snapshot//5.car" ∧
    (∃ s1 s2 k, s1 ≠ s2 ∧ ¬ (str "latest" <:+: s1) ∧ ¬ (str "latest" <:+: s2) ∧
      ParseKey s1 = .ok k ∧ ParseKey s2 = .ok k ∧ k.Default ≠ s2) := by
  refine ⟨by decide, by decide, by decide, by decide, by decide, by decide, by decide,
    by decide, by decide, by decide, by decide, by decide, by decide, ?_⟩
  exact ⟨str "snapshot/5.car", str "snapshot//5.car", NewKey 5 Snapshot,
    by decide, by decide, by decide, by decide, by decide, by decide⟩

end Datastore
